import Mathlib

/-!
# Verification of the todo.txt record codec and command engine

Shallow embedding of `src/todo.rs` (record parser/serializer) and
`src/command.rs` (command-and-view engine) of the `Santonn/todo` repository.

Strings are handled through their character lists.  Rust's
`str::split_whitespace` is modelled by `tokenize`, `str::trim` by `strTrim`,
and `Vec::join(" ")` by `sepJoin`.  Calendar dates (`chrono::NaiveDate`) are
modelled by the `Date` structure; `%Y-%m-%d` parsing is modelled without
chrono's explicit-sign extension (a leading `+`/`-` before the year), which
none of the verified properties exercise; `%Y-%m-%d` formatting is modelled
for the years `0..=9999` that the unsigned parser can produce.
-/

/-! ## Characters and whitespace -/

/-- Rust `char::is_ascii_digit` / the digit class used by `usize` and date
parsing: `'0'..='9'`. -/
def isDigitC (c : Char) : Bool := 48 ≤ c.toNat && c.toNat ≤ 57

/-- UTF-8 byte length of a character list; models Rust `str::len`. -/
def utf8Len (l : List Char) : Nat := (l.map Char.utf8Size).sum

/-- Flush a (reversed) token accumulator: emit the pending token, if any. -/
def flushTok (cur : List Char) : List (List Char) :=
  match cur with
  | [] => []
  | _ => [cur.reverse]

/-- Worker of `tokenize`: `cur` holds the current token, reversed. -/
def tokAux (cur : List Char) : List Char → List (List Char)
  | [] => flushTok cur
  | c :: rest =>
    if c.isWhitespace then flushTok cur ++ tokAux [] rest
    else tokAux (c :: cur) rest

/-- Models Rust `str::split_whitespace` on a character list. -/
def tokenize (l : List Char) : List (List Char) := tokAux [] l

/-- Tokens of a string, as strings; models `str::split_whitespace`. -/
def tokenizeStr (s : String) : List String := (tokenize s.data).map String.mk

/-- Models Rust `str::trim` (drop leading and trailing whitespace). -/
def trimChars (l : List Char) : List Char :=
  ((l.dropWhile Char.isWhitespace).reverse.dropWhile Char.isWhitespace).reverse

/-- Models Rust `str::trim` at the string level. -/
def strTrim (s : String) : String := String.mk (trimChars s.data)

/-- Join character lists with single `' '` separators;
models `Vec::<String>::join(" ")`. -/
def sepJoin : List (List Char) → List Char
  | [] => []
  | [a] => a
  | a :: rest => a ++ ' ' :: sepJoin rest

/-- `sepJoin` at the string level. -/
def joinSp (ts : List String) : String := String.mk (sepJoin (ts.map String.data))

/-- Models Rust `str::strip_prefix`. -/
def stripPrefixStr (p s : String) : Option String :=
  if p.data.isPrefixOf s.data then some (String.mk (s.data.drop p.data.length)) else none

/-! ## Dates: the chrono `%Y-%m-%d` model -/

/-- A calendar date, modelling `chrono::NaiveDate` through its
(year, month, day) triple. -/
structure Date where
  year : Nat
  month : Nat
  day : Nat
deriving DecidableEq, Repr

/-- Proleptic Gregorian leap year, as used by chrono. -/
def isLeap (y : Nat) : Bool := (y % 4 == 0 && y % 100 != 0) || y % 400 == 0

/-- Number of days of month `m` of year `y`. -/
def daysInMonth (y m : Nat) : Nat :=
  if m == 2 then (if isLeap y then 29 else 28)
  else if m == 4 || m == 6 || m == 9 || m == 11 then 30
  else 31

/-- Validity check performed by `NaiveDate::from_ymd_opt`. -/
def validDate (y m d : Nat) : Bool :=
  1 ≤ m && m ≤ 12 && 1 ≤ d && d ≤ daysInMonth y m

/-- Numeric value of a digit list (most significant first). -/
def digitsVal (l : List Char) : Nat := l.foldl (fun acc c => acc * 10 + (c.toNat - 48)) 0

/-- Split a character list at every `'-'`. -/
def splitOnDash : List Char → List (List Char)
  | [] => [[]]
  | c :: rest =>
    match splitOnDash rest with
    | [] => [[]]
    | h :: t => if c = '-' then [] :: h :: t else (c :: h) :: t

/-- A digit group of between `lo` and `hi` digits, as scanned by chrono's
numeric-item parser. -/
def digitGroup (lo hi : Nat) (l : List Char) : Bool :=
  l.all isDigitC && lo ≤ l.length && l.length ≤ hi

/-- Models `NaiveDate::parse_from_str(s, "%Y-%m-%d")` (unsigned year):
1–4 year digits, 1–2 month digits, 1–2 day digits, full consumption,
calendar validity. -/
def parseDateChars (l : List Char) : Option Date :=
  match splitOnDash l with
  | [ys, ms, ds] =>
    if digitGroup 1 4 ys && digitGroup 1 2 ms && digitGroup 1 2 ds then
      let y := digitsVal ys
      let m := digitsVal ms
      let d := digitsVal ds
      if validDate y m d then some ⟨y, m, d⟩ else none
    else none
  | _ => none

/-- Date parsing at the string level. -/
def parseDate (s : String) : Option Date := parseDateChars s.data

/-- The ASCII digit character of `n % 10`. -/
def digitChar (n : Nat) : Char := Char.ofNat (48 + n % 10)

/-- Two zero-padded decimal digits (for `%m` / `%d`). -/
def pad2 (n : Nat) : List Char := [digitChar (n / 10), digitChar n]

/-- Four zero-padded decimal digits (for `%Y`, years `0..=9999`). -/
def pad4 (n : Nat) : List Char :=
  [digitChar (n / 1000), digitChar (n / 100), digitChar (n / 10), digitChar n]

/-- Models `NaiveDate::format("%Y-%m-%d")` on a character list. -/
def formatDateChars (d : Date) : List Char :=
  pad4 d.year ++ '-' :: pad2 d.month ++ '-' :: pad2 d.day

/-- Date formatting at the string level. -/
def formatDate (d : Date) : String := String.mk (formatDateChars d)

/-- Chronological strict order on dates (lexicographic on year, month, day);
models `Ord` on `chrono::NaiveDate`. -/
def dateLt (a b : Date) : Bool :=
  a.year < b.year ||
    (a.year == b.year && (a.month < b.month ||
      (a.month == b.month && a.day < b.day)))

/-! ## The Todo record (`src/todo.rs`) -/

/-- `Description` of `src/todo.rs`. -/
structure Description where
  content : String
  project : Option String
  context : Option String
  supplement : Option String
  due : Option Date
deriving DecidableEq, Repr

/-- `Todo` of `src/todo.rs`. -/
structure Todo where
  completion : Bool
  priority : Option Char
  completion_date : Option Date
  creation_date : Option Date
  description : Description
deriving DecidableEq, Repr

/-- The priority-token test of `Todo::parse`:
`tok.len() == 3 && tok.starts_with('(') && tok.ends_with(')')`
(`len` is the UTF-8 byte length). -/
def prioShaped (w : String) : Bool :=
  utf8Len w.data == 3 && w.data.head? == some '(' && w.data.getLast? == some ')'

/-- `w.starts_with("due:")`. -/
def startsWithDue (w : String) : Bool :=
  match w.data with
  | 'd' :: 'u' :: 'e' :: ':' :: _ => true
  | _ => false

/-- Step 1 of `Todo::parse`: consume a leading `"x"` completion marker. -/
def parseMarker (tokens : List String) : Bool × List String :=
  match tokens with
  | "x" :: rest => (true, rest)
  | _ => (false, tokens)

/-- Step 2 of `Todo::parse`: consume a `(P)` priority token
(`priority = tok.chars().nth(1)`). -/
def parsePriority (tokens : List String) : Option Char × List String :=
  match tokens with
  | tok :: rest => if prioShaped tok then (tok.data[1]?, rest) else (none, tokens)
  | [] => (none, tokens)

/-- Step 3 of `Todo::parse`: the completion/creation date match on
`(completion, d1, d2)`.  Returns `(completion_date, creation_date, rest)`. -/
def parseDates (completion : Bool) (tokens : List String) :
    Option Date × Option Date × List String :=
  let d1 := tokens[0]?.bind parseDate
  let d2 := tokens[1]?.bind parseDate
  match completion, d1, d2 with
  | true, some cd, some cr => (some cd, some cr, tokens.drop 2)
  | false, some cr, _ => (none, some cr, tokens.drop 1)
  | _, _, _ => (none, none, tokens)

/-- Accumulator of the content/tag classification loop of `Todo::parse`. -/
structure DescAcc where
  content : List String
  project : Option String
  context : Option String
  supplement : Option String
  due : Option Date
deriving DecidableEq, Repr

/-- One iteration of the classification loop of `Todo::parse`
(`for &w in &tokens[idx..]`). -/
def classify (acc : DescAcc) (w : String) : DescAcc :=
  if w.data.head? = some '+' then
    { acc with project := some (String.mk w.data.tail) }
  else if w.data.head? = some '@' then
    { acc with context := some (String.mk w.data.tail) }
  else if startsWithDue w then
    let acc' :=
      match parseDateChars (w.data.drop 4) with
      | some d => { acc with due := some d }
      | none => acc
    { acc' with supplement := some w }
  else if acc.supplement = none ∧ (w.data.contains ':' || w.data.contains '=') then
    { acc with supplement := some w }
  else
    { acc with content := acc.content ++ [w] }

/-- `Todo::parse` on an already-tokenized line. -/
def Todo.parseTokens (tokens : List String) : Todo :=
  let m := parseMarker tokens
  let p := parsePriority m.2
  let d := parseDates m.1 p.2
  let acc := d.2.2.foldl classify ⟨[], none, none, none, none⟩
  { completion := m.1
    priority := p.1
    completion_date := d.1
    creation_date := d.2.1
    description :=
      { content := joinSp acc.content
        project := acc.project
        context := acc.context
        supplement := acc.supplement
        due := acc.due } }

/-- `Todo::parse`: `line.trim().split_whitespace()` then the token pass. -/
def Todo.parse (line : String) : Todo :=
  Todo.parseTokens (tokenizeStr (strTrim line))

/-- The token list emitted by `Todo::format` (before joining with `" "`). -/
def Todo.formatParts (t : Todo) : List String :=
  (if t.completion then ["x"] else []) ++
  (match t.priority with
   | some p => [String.mk ['(', p, ')']]
   | none => []) ++
  (if t.completion then
    match t.completion_date with
    | some cd => [formatDate cd]
    | none => []
   else []) ++
  (match t.creation_date with
   | some cr => [formatDate cr]
   | none => []) ++
  [t.description.content] ++
  (match t.description.project with
   | some p => [String.mk ('+' :: p.data)]
   | none => []) ++
  (match t.description.context with
   | some c => [String.mk ('@' :: c.data)]
   | none => []) ++
  (match t.description.supplement with
   | some s => [s]
   | none => [])

/-- `Todo::format`: `parts.join(" ")`. -/
def Todo.format (t : Todo) : String := joinSp t.formatParts

/-- `Todo::mark_done`, with `Local::now().date_naive()` passed explicitly. -/
def Todo.mark_done (today : Date) (t : Todo) : Todo :=
  if !t.completion then
    { t with completion := true, completion_date := some today }
  else t

/-- `Todo::from_add`, with today's date passed explicitly. -/
def Todo.from_add (today : Date) (input : String) : Except String Todo :=
  let t := Todo.parse input
  if trimChars t.description.content.data = [] then
    .error "Task must include non-empty description"
  else if t.creation_date = none then
    .ok { t with creation_date := some today }
  else
    .ok t

/-! ## Storage model (`src/storage.rs`)

The file is a list of lines.  Each operation's success or failure is
predetermined by a flag, modelling the `io::Result` outcomes of the real
file operations. -/

/-- State of `todo.txt` plus the I/O outcomes of the three operations. -/
structure FS where
  lines : List String
  appendFails : Bool
  rewriteFails : Bool
  readFails : Bool
deriving DecidableEq, Repr

/-- `storage::load_all`: parse every line; an unreadable file yields `[]`. -/
def load_all (fs : FS) : List Todo :=
  if fs.readFails then [] else fs.lines.map Todo.parse

/-- `storage::rewrite_file`: overwrite the file with the formatted todos.
Returns the new state and whether the write succeeded. -/
def rewrite_file (fs : FS) (todos : List Todo) : FS × Bool :=
  if fs.rewriteFails then (fs, false)
  else ({ fs with lines := todos.map Todo.format }, true)

/-- `storage::append_one`: append one formatted todo line. -/
def append_one (fs : FS) (t : Todo) : FS × Bool :=
  if fs.appendFails then (fs, false)
  else ({ fs with lines := fs.lines ++ [t.format] }, true)

/-! ## Command engine (`src/command.rs`) -/

/-- `command::CommandResult`. -/
structure CommandResult where
  todos : List Todo
  view : List Nat
  error : Option String
deriving DecidableEq, Repr

/-- Models `usize::from_str`: optional `'+'`, then one or more digits,
rejecting values that overflow a 64-bit `usize`. -/
def parseUsize (s : String) : Option Nat :=
  let l := if s.data.head? = some '+' then s.data.tail else s.data
  if l ≠ [] ∧ l.all isDigitC then
    if digitsVal l < 2 ^ 64 then some (digitsVal l) else none
  else none

/-- The `closest` filter: `enumerate().filter_map(...)` collecting
`(index, due)` for incomplete todos with a due date, indices from `i0`. -/
def closestPairsFrom (i0 : Nat) : List Todo → List (Nat × Date)
  | [] => []
  | t :: ts =>
    (if !t.completion then
      match t.description.due with
      | some d => [(i0, d)]
      | none => []
     else []) ++ closestPairsFrom (i0 + 1) ts

/-- The `important` filter: `(index, priority)` for incomplete todos with a
priority, indices from `i0`. -/
def importantPairsFrom (i0 : Nat) : List Todo → List (Nat × Char)
  | [] => []
  | t :: ts =>
    (if !t.completion then
      match t.priority with
      | some p => [(i0, p)]
      | none => []
     else []) ++ importantPairsFrom (i0 + 1) ts

/-- Stable insertion into a sorted list: skip the strictly smaller keys, then
place the new element.  In `sortByKey` the inserted element originates
*earlier* in the input than every element of the sorted tail, so placing it
before equal keys reproduces the stability of Rust's `sort_by_key`. -/
def insertByKey {κ : Type} (lt : κ → κ → Bool) (key : Nat × κ → κ)
    (x : Nat × κ) : List (Nat × κ) → List (Nat × κ)
  | [] => [x]
  | y :: ys =>
    if lt (key y) (key x) then y :: insertByKey lt key x ys
    else x :: y :: ys

/-- Stable insertion sort; extensionally equal to Rust's stable
`sort_by_key` for a strict-order `lt` on keys. -/
def sortByKey {κ : Type} (lt : κ → κ → Bool) (key : Nat × κ → κ) :
    List (Nat × κ) → List (Nat × κ)
  | [] => []
  | x :: xs => insertByKey lt key x (sortByKey lt key xs)

/-- `Ord` on `char` (code points). -/
def charLt (a b : Char) : Bool := a.toNat < b.toNat

/-- The `list` arm of `execute_command`: reload from storage, reset view. -/
def doList (fs : FS) : CommandResult × FS :=
  let todos' := load_all fs
  (⟨todos', List.range todos'.length, none⟩, fs)

/-- The `add` arm of `execute_command`. -/
def doAdd (today : Date) (fs : FS) (todos : List Todo) (view : List Nat)
    (cmd : String) : CommandResult × FS :=
  match stripPrefixStr "add " cmd with
  | some rest =>
    match Todo.from_add today (strTrim rest) with
    | .ok t =>
      match append_one fs t with
      | (fs', true) =>
        let todos' := todos ++ [t]
        (⟨todos', List.range todos'.length, none⟩, fs')
      | (fs', false) => (⟨todos, view, none⟩, fs')
    | .error e => (⟨todos, view, some e⟩, fs)
  | none => (⟨todos, view, some "Usage: add <todo>"⟩, fs)

/-- The `done` arm of `execute_command`.  `none` models the panic of the Rust
indexing `todos[idx]` when `idx` is out of bounds. -/
def doDone (today : Date) (fs : FS) (todos : List Todo) (view : List Nat)
    (cmd : String) : Option (CommandResult × FS) :=
  match stripPrefixStr "done " cmd with
  | some arg =>
    match parseUsize (strTrim arg) with
    | some id =>
      if 1 ≤ id ∧ id ≤ view.length then
        match view[id - 1]? with
        | some idx =>
          if h : idx < todos.length then
            let todos1 := todos.set idx (Todo.mark_done today todos[idx])
            let fs' := (rewrite_file fs todos1).1
            let todos2 := load_all fs'
            some (⟨todos2, List.range todos2.length, none⟩, fs')
          else none
        | none => none
      else some (⟨todos, view, some "Invalid ID"⟩, fs)
    | none => some (⟨todos, view, some "Usage: done <ID>"⟩, fs)
  | none => some (⟨todos, view, none⟩, fs)

/-- The `remove` arm of `execute_command`.  `none` models the panic of
`todos.remove(idx)` when `idx` is out of bounds. -/
def doRemove (fs : FS) (todos : List Todo) (view : List Nat)
    (cmd : String) : Option (CommandResult × FS) :=
  match stripPrefixStr "remove " cmd with
  | some arg =>
    match parseUsize (strTrim arg) with
    | some id =>
      if 1 ≤ id ∧ id ≤ view.length then
        match view[id - 1]? with
        | some idx =>
          if idx < todos.length then
            let todos1 := todos.eraseIdx idx
            let fs' := (rewrite_file fs todos1).1
            let todos2 := load_all fs'
            some (⟨todos2, List.range todos2.length, none⟩, fs')
          else none
        | none => none
      else some (⟨todos, view, some "Invalid ID"⟩, fs)
    | none => some (⟨todos, view, some "Usage: remove <ID>"⟩, fs)
  | none => some (⟨todos, view, none⟩, fs)

/-- The `closest` arm: filter incomplete todos with a due date, stable-sort
ascending by due date, project the indices. -/
def doClosest (fs : FS) (todos : List Todo) : CommandResult × FS :=
  let pairs := closestPairsFrom 0 todos
  let sorted := sortByKey dateLt Prod.snd pairs
  (⟨todos, sorted.map Prod.fst, none⟩, fs)

/-- The `important` arm: filter incomplete todos with a priority, stable-sort
ascending by priority character, project the indices. -/
def doImportant (fs : FS) (todos : List Todo) : CommandResult × FS :=
  let filtered := importantPairsFrom 0 todos
  let sorted := sortByKey charLt Prod.snd filtered
  (⟨todos, sorted.map Prod.fst, none⟩, fs)

/-- `command::execute_command`, with today's date and the storage state
passed explicitly.  Returns `none` when the Rust code would panic from an
out-of-bounds index. -/
def execute_command (today : Date) (fs : FS) (todos : List Todo)
    (view : List Nat) (input : String) : Option (CommandResult × FS) :=
  match (tokenizeStr (strTrim input)).head? with
  | none => some (⟨todos, view, none⟩, fs)
  | some word =>
    if word = "list" then some (doList fs)
    else if word = "add" then some (doAdd today fs todos view (strTrim input))
    else if word = "done" then doDone today fs todos view (strTrim input)
    else if word = "remove" then doRemove fs todos view (strTrim input)
    else if word = "closest" then some (doClosest fs todos)
    else if word = "important" then some (doImportant fs todos)
    else some (⟨todos, view, some ("Unknown command: " ++ word)⟩, fs)

/-- A clean token: nonempty and whitespace-free; `split_whitespace` produces
exactly such tokens. -/
def cleanTok (w : List Char) : Prop := w ≠ [] ∧ ∀ c ∈ w, c.isWhitespace = false

instance (w : List Char) : Decidable (cleanTok w) := by
  unfold cleanTok
  infer_instance

/-! ## Lemmas about the tokenizer -/

theorem tokAux_nil (cur : List Char) : tokAux cur [] = flushTok cur := rfl

theorem tokAux_cons (cur : List Char) (c : Char) (rest : List Char) :
    tokAux cur (c :: rest) =
      if c.isWhitespace then flushTok cur ++ tokAux [] rest
      else tokAux (c :: cur) rest := rfl

theorem tokAux_append_ws (c : Char) (hc : c.isWhitespace = true) :
    ∀ (a cur b : List Char), tokAux cur (a ++ c :: b) = tokAux cur a ++ tokAux [] b
  | [], cur, b => by simp [tokAux_cons, hc, tokAux_nil]
  | d :: a', cur, b => by
    rw [List.cons_append, tokAux_cons, tokAux_cons]
    by_cases hd : d.isWhitespace
    · rw [hd, if_pos rfl, if_pos rfl, tokAux_append_ws c hc a' [] b, List.append_assoc]
    · rw [eq_false_of_ne_true hd]
      simp only [Bool.false_eq_true, if_false]
      exact tokAux_append_ws c hc a' (d :: cur) b

theorem tokAux_nonws :
    ∀ (a cur : List Char), (∀ x ∈ a, x.isWhitespace = false) →
      tokAux cur a = flushTok (a.reverse ++ cur)
  | [], cur, _ => by simp [tokAux_nil]
  | c :: a', cur, h => by
    have hc : c.isWhitespace = false := h c (by simp)
    rw [tokAux_cons, hc]
    simp only [Bool.false_eq_true, if_false]
    rw [tokAux_nonws a' (c :: cur) (fun x hx => h x (by simp [hx]))]
    simp

theorem tokAux_allws :
    ∀ (b cur : List Char), (∀ x ∈ b, x.isWhitespace = true) → tokAux cur b = flushTok cur
  | [], cur, _ => rfl
  | c :: b', cur, h => by
    have hc : c.isWhitespace = true := h c (by simp)
    rw [tokAux_cons, hc, if_pos rfl, tokAux_allws b' [] (fun x hx => h x (by simp [hx]))]
    simp [flushTok]

theorem tokenize_append_sep (a b : List Char) :
    tokenize (a ++ ' ' :: b) = tokenize a ++ tokenize b :=
  tokAux_append_ws ' ' (by decide) a [] b

theorem tokenize_of_clean (w : List Char) (h : cleanTok w) : tokenize w = [w] := by
  unfold tokenize
  rw [tokAux_nonws w [] h.2, List.append_nil]
  have hne : w.reverse ≠ [] := by simpa using h.1
  rcases hrev : w.reverse with _ | ⟨c, cs⟩
  · exact absurd hrev hne
  · show [(c :: cs).reverse] = [w]
    rw [← hrev, List.reverse_reverse]

theorem tokenize_sepJoin : ∀ ls : List (List Char),
    tokenize (sepJoin ls) = (ls.map tokenize).flatten
  | [] => rfl
  | [a] => by simp [sepJoin]
  | a :: b :: rest => by
    show tokenize (a ++ ' ' :: sepJoin (b :: rest)) = _
    rw [tokenize_append_sep, tokenize_sepJoin (b :: rest)]
    simp

theorem mem_flushTok {w cur : List Char} (h : w ∈ flushTok cur) :
    w = cur.reverse ∧ cur ≠ [] := by
  rcases cur with _ | ⟨c, cs⟩
  · simp [flushTok] at h
  · simp only [flushTok, List.mem_singleton] at h
    exact ⟨h, by simp⟩

theorem tokAux_clean :
    ∀ (l cur : List Char), (∀ c ∈ cur, c.isWhitespace = false) →
      ∀ w ∈ tokAux cur l, cleanTok w
  | [], cur, hcur, w, hw => by
    rw [tokAux_nil] at hw
    obtain ⟨rfl, hne⟩ := mem_flushTok hw
    exact ⟨by simpa using hne, fun c hc => hcur c (by simpa using hc)⟩
  | c :: rest, cur, hcur, w, hw => by
    rw [tokAux_cons] at hw
    by_cases hc : c.isWhitespace
    · rw [hc, if_pos rfl, List.mem_append] at hw
      rcases hw with hw | hw
      · obtain ⟨rfl, hne⟩ := mem_flushTok hw
        exact ⟨by simpa using hne, fun x hx => hcur x (by simpa using hx)⟩
      · exact tokAux_clean rest [] (by simp) w hw
    · rw [eq_false_of_ne_true hc] at hw
      simp only [Bool.false_eq_true, if_false] at hw
      refine tokAux_clean rest (c :: cur) ?_ w hw
      intro x hx
      rcases List.mem_cons.mp hx with rfl | hx
      · exact eq_false_of_ne_true hc
      · exact hcur x hx

theorem tokenize_clean (l : List Char) : ∀ w ∈ tokenize l, cleanTok w :=
  tokAux_clean l [] (by simp)

theorem tokenize_ws_front {p : List Char} (hp : ∀ c ∈ p, c.isWhitespace = true) :
    ∀ l, tokenize (p ++ l) = tokenize l := by
  induction p with
  | nil => intro l; rfl
  | cons c p' ih =>
    intro l
    have hc : c.isWhitespace = true := hp c (by simp)
    show tokAux [] (c :: (p' ++ l)) = _
    rw [tokAux_cons, hc, if_pos rfl]
    show flushTok [] ++ tokenize (p' ++ l) = tokenize l
    rw [ih (fun x hx => hp x (by simp [hx])) l]
    rfl

theorem tokAux_ws_suffix :
    ∀ (a cur b : List Char), (∀ c ∈ b, c.isWhitespace = true) →
      tokAux cur (a ++ b) = tokAux cur a
  | [], cur, b, hb => by rw [List.nil_append, tokAux_allws b cur hb, tokAux_nil]
  | c :: a', cur, b, hb => by
    rw [List.cons_append, tokAux_cons, tokAux_cons]
    by_cases hc : c.isWhitespace
    · rw [hc, if_pos rfl, if_pos rfl, tokAux_ws_suffix a' [] b hb]
    · rw [eq_false_of_ne_true hc]
      simp only [Bool.false_eq_true, if_false]
      exact tokAux_ws_suffix a' (c :: cur) b hb

theorem tokenize_trimChars (l : List Char) : tokenize (trimChars l) = tokenize l := by
  unfold trimChars
  set m := l.dropWhile Char.isWhitespace with hm
  have h1 : tokenize m = tokenize l := by
    conv_rhs => rw [← List.takeWhile_append_dropWhile (p := Char.isWhitespace) (l := l)]
    exact (tokenize_ws_front (fun c hc => List.mem_takeWhile_imp hc) _).symm
  have hsplit : (m.reverse.dropWhile Char.isWhitespace).reverse ++
      (m.reverse.takeWhile Char.isWhitespace).reverse = m := by
    rw [← List.reverse_append, List.takeWhile_append_dropWhile, List.reverse_reverse]
  rw [← h1]
  conv_rhs => rw [← hsplit]
  exact (tokAux_ws_suffix _ [] _
    (fun c hc => List.mem_takeWhile_imp (by simpa using hc))).symm


/-- Join character lists with `'-'` separators; inverse of `splitOnDash`. -/
def joinDash : List (List Char) → List Char
  | [] => []
  | [a] => a
  | a :: rest => a ++ '-' :: joinDash rest

/-! ## Lemmas about dates -/

theorem digitChar_toNat (n : Nat) : (digitChar n).toNat = 48 + n % 10 := by
  unfold digitChar
  have h : n % 10 < 10 := Nat.mod_lt _ (by norm_num)
  set k := n % 10 with hk
  clear_value k
  interval_cases k <;> decide

theorem digitChar_isDigit (n : Nat) : isDigitC (digitChar n) = true := by
  unfold isDigitC
  rw [digitChar_toNat]
  have h : n % 10 < 10 := Nat.mod_lt _ (by norm_num)
  simp only [Bool.and_eq_true, decide_eq_true_eq]
  omega

theorem digitChar_ne_dash (n : Nat) : digitChar n ≠ '-' := by
  unfold digitChar
  have h : n % 10 < 10 := Nat.mod_lt _ (by norm_num)
  set k := n % 10 with hk
  clear_value k
  interval_cases k <;> decide

theorem isDigitC_not_ws {c : Char} (h : isDigitC c = true) : c.isWhitespace = false := by
  unfold isDigitC at h
  simp only [Bool.and_eq_true, decide_eq_true_eq] at h
  simp only [Char.isWhitespace, Bool.or_eq_false_iff, decide_eq_false_iff_not]
  refine ⟨⟨⟨?_, ?_⟩, ?_⟩, ?_⟩ <;> (rintro rfl; exact absurd h (by decide))

theorem digitsVal_foldl (l : List Char) :
    ∀ acc : Nat,
      l.foldl (fun acc c => acc * 10 + (c.toNat - 48)) acc =
        acc * 10 ^ l.length + digitsVal l := by
  induction l with
  | nil => intro acc; simp [digitsVal]
  | cons c l' ih =>
    intro acc
    show l'.foldl _ (acc * 10 + (c.toNat - 48)) = _
    rw [ih (acc * 10 + (c.toNat - 48))]
    have h2 : digitsVal (c :: l') = (c.toNat - 48) * 10 ^ l'.length + digitsVal l' := by
      show l'.foldl _ (0 * 10 + (c.toNat - 48)) = _
      rw [ih (0 * 10 + (c.toNat - 48))]
      ring
    rw [h2, List.length_cons, pow_succ]
    ring

theorem digitsVal_cons (c : Char) (l : List Char) :
    digitsVal (c :: l) = (c.toNat - 48) * 10 ^ l.length + digitsVal l := by
  show l.foldl _ (0 * 10 + (c.toNat - 48)) = _
  rw [digitsVal_foldl]
  ring

theorem digitsVal_lt (l : List Char) (h : l.all isDigitC = true) :
    digitsVal l < 10 ^ l.length := by
  induction l with
  | nil => simp [digitsVal]
  | cons c l' ih =>
    simp only [List.all_cons, Bool.and_eq_true] at h
    have hc : c.toNat - 48 ≤ 9 := by
      have := h.1
      unfold isDigitC at this
      simp only [Bool.and_eq_true, decide_eq_true_eq] at this
      omega
    have hl := ih h.2
    rw [digitsVal_cons, List.length_cons, pow_succ]
    calc (c.toNat - 48) * 10 ^ l'.length + digitsVal l'
        < (c.toNat - 48) * 10 ^ l'.length + 10 ^ l'.length := by omega
      _ = (c.toNat - 48 + 1) * 10 ^ l'.length := by ring
      _ ≤ 10 * 10 ^ l'.length := by
          exact Nat.mul_le_mul_right _ (by omega)
      _ = 10 ^ l'.length * 10 := by ring

theorem splitOnDash_cons (c : Char) (rest : List Char) :
    splitOnDash (c :: rest) =
      match splitOnDash rest with
      | [] => [[]]
      | h :: t => if c = '-' then [] :: h :: t else (c :: h) :: t := rfl

theorem splitOnDash_ne_nil (l : List Char) : splitOnDash l ≠ [] := by
  cases l with
  | nil => simp [splitOnDash]
  | cons c rest =>
    unfold splitOnDash
    rcases h : splitOnDash rest with _ | ⟨a, t⟩
    · simp
    · by_cases hc : c = '-' <;> simp [hc]

theorem splitOnDash_no_dash (a : List Char) (h : ∀ c ∈ a, c ≠ '-') :
    splitOnDash a = [a] := by
  induction a with
  | nil => rfl
  | cons c a' ih =>
    unfold splitOnDash
    rw [ih (fun x hx => h x (by simp [hx]))]
    have hc : c ≠ '-' := h c (by simp)
    simp [hc]

theorem splitOnDash_append_dash (a r : List Char) (h : ∀ c ∈ a, c ≠ '-') :
    splitOnDash (a ++ '-' :: r) = a :: splitOnDash r := by
  induction a with
  | nil =>
    show splitOnDash ('-' :: r) = [] :: splitOnDash r
    rw [splitOnDash_cons]
    rcases hr : splitOnDash r with _ | ⟨b, t⟩
    · exact absurd hr (splitOnDash_ne_nil r)
    · simp
  | cons c a' ih =>
    have hc : c ≠ '-' := h c (by simp)
    show splitOnDash (c :: (a' ++ '-' :: r)) = (c :: a') :: splitOnDash r
    rw [splitOnDash_cons, ih (fun x hx => h x (by simp [hx]))]
    simp [hc]

theorem joinDash_cons_cons (c : Char) (h : List Char) (t : List (List Char)) :
    joinDash ((c :: h) :: t) = c :: joinDash (h :: t) := by
  cases t with
  | nil => rfl
  | cons b t' => rfl

theorem joinDash_splitOnDash (l : List Char) : joinDash (splitOnDash l) = l := by
  induction l with
  | nil => rfl
  | cons c rest ih =>
    rw [splitOnDash_cons]
    rcases hr : splitOnDash rest with _ | ⟨b, t⟩
    · exact absurd hr (splitOnDash_ne_nil rest)
    · rw [hr] at ih
      by_cases hc : c = '-'
      · subst hc
        simp only [if_pos rfl]
        show '-' :: joinDash (b :: t) = '-' :: rest
        rw [ih]
      · simp only [if_neg hc]
        rw [joinDash_cons_cons, ih]

theorem splitOnDash_mem_no_dash :
    ∀ (l : List Char) (s : List Char), s ∈ splitOnDash l → ∀ c ∈ s, c ≠ '-'
  | [], s, hs, c, hc => by
    simp only [splitOnDash, List.mem_singleton] at hs
    subst hs
    simp at hc
  | a :: rest, s, hs, c, hc => by
    rw [splitOnDash_cons] at hs
    rcases hr : splitOnDash rest with _ | ⟨b, t⟩
    · exact absurd hr (splitOnDash_ne_nil rest)
    · rw [hr] at hs
      have hs' : s ∈ (if a = '-' then [] :: b :: t else (a :: b) :: t) := hs
      by_cases ha : a = '-'
      · rw [if_pos ha] at hs'
        rcases List.mem_cons.mp hs' with rfl | hs'
        · simp at hc
        · exact splitOnDash_mem_no_dash rest s (hr ▸ hs') c hc
      · rw [if_neg ha] at hs'
        rcases List.mem_cons.mp hs' with rfl | hs'
        · rcases List.mem_cons.mp hc with rfl | hc
          · exact ha
          · exact splitOnDash_mem_no_dash rest b (hr ▸ List.mem_cons_self b t) c hc
        · exact splitOnDash_mem_no_dash rest s (hr ▸ List.mem_cons_of_mem b hs') c hc

theorem daysInMonth_le (y m : Nat) : daysInMonth y m ≤ 31 := by
  unfold daysInMonth
  split_ifs <;> omega

theorem validDate_bounds {y m d : Nat} (h : validDate y m d = true) :
    1 ≤ m ∧ m ≤ 12 ∧ 1 ≤ d ∧ d ≤ 31 := by
  unfold validDate at h
  simp only [Bool.and_eq_true, decide_eq_true_eq] at h
  have := daysInMonth_le y m
  omega

theorem pad2_no_dash (n : Nat) : ∀ c ∈ pad2 n, c ≠ '-' := by
  intro c hc
  simp only [pad2, List.mem_cons, List.mem_singleton, List.not_mem_nil] at hc
  rcases hc with rfl | rfl | h
  · exact digitChar_ne_dash _
  · exact digitChar_ne_dash _
  · exact absurd h (by simp)

theorem pad4_no_dash (n : Nat) : ∀ c ∈ pad4 n, c ≠ '-' := by
  intro c hc
  simp only [pad4, List.mem_cons, List.mem_singleton, List.not_mem_nil] at hc
  rcases hc with rfl | rfl | rfl | rfl | h
  · exact digitChar_ne_dash _
  · exact digitChar_ne_dash _
  · exact digitChar_ne_dash _
  · exact digitChar_ne_dash _
  · exact absurd h (by simp)

theorem pad2_digits (n : Nat) : (pad2 n).all isDigitC = true := by
  simp [pad2, digitChar_isDigit]

theorem pad4_digits (n : Nat) : (pad4 n).all isDigitC = true := by
  simp [pad4, digitChar_isDigit]

theorem digitsVal_pad2 (n : Nat) : digitsVal (pad2 n) = n % 100 := by
  show List.foldl _ 0 _ = n % 100
  simp only [pad2, List.foldl, digitChar_toNat]
  omega

theorem digitsVal_pad4 (n : Nat) : digitsVal (pad4 n) = n % 10000 := by
  show List.foldl _ 0 _ = n % 10000
  simp only [pad4, List.foldl, digitChar_toNat]
  omega

theorem parseDateChars_format {y m d : Nat} (hv : validDate y m d = true)
    (hy : y < 10000) :
    parseDateChars (formatDateChars ⟨y, m, d⟩) = some ⟨y, m, d⟩ := by
  obtain ⟨hm1, hm2, hd1, hd2⟩ := validDate_bounds hv
  unfold formatDateChars parseDateChars
  show (match splitOnDash (pad4 y ++ '-' :: (pad2 m ++ '-' :: pad2 d)) with
    | [ys, ms, ds] => _ | _ => none) = _
  rw [splitOnDash_append_dash _ _ (pad4_no_dash y),
    splitOnDash_append_dash _ _ (pad2_no_dash m),
    splitOnDash_no_dash _ (pad2_no_dash d)]
  have hg1 : digitGroup 1 4 (pad4 y) = true := by
    simp [digitGroup, pad4, digitChar_isDigit]
  have hg2 : digitGroup 1 2 (pad2 m) = true := by
    simp [digitGroup, pad2, digitChar_isDigit]
  have hg3 : digitGroup 1 2 (pad2 d) = true := by
    simp [digitGroup, pad2, digitChar_isDigit]
  simp only [hg1, hg2, hg3, Bool.and_self, if_pos]
  rw [digitsVal_pad4, digitsVal_pad2, digitsVal_pad2,
    Nat.mod_eq_of_lt hy, Nat.mod_eq_of_lt (by omega : m < 100),
    Nat.mod_eq_of_lt (by omega : d < 100), if_pos hv]

theorem parseDateChars_inv {l : List Char} {dt : Date}
    (h : parseDateChars l = some dt) :
    validDate dt.year dt.month dt.day = true ∧ dt.year < 10000 ∧
      dt.month < 100 ∧ dt.day < 100 ∧
      (∃ c0 rest, l = c0 :: rest ∧ isDigitC c0 = true) ∧
      (∀ c ∈ l, isDigitC c = true ∨ c = '-') ∧ 5 ≤ l.length := by
  unfold parseDateChars at h
  rcases hs : splitOnDash l with _ | ⟨ys, _ | ⟨ms, _ | ⟨ds, _ | ⟨e, t⟩⟩⟩⟩ <;>
    rw [hs] at h
  · exact Option.noConfusion h
  · exact Option.noConfusion h
  · exact Option.noConfusion h
  case cons.cons.cons.cons => exact Option.noConfusion h
  have hjoin : ys ++ '-' :: (ms ++ '-' :: ds) = l := by
    have := joinDash_splitOnDash l
    rw [hs] at this
    simpa [joinDash] using this
  replace h :
      (if (digitGroup 1 4 ys && digitGroup 1 2 ms && digitGroup 1 2 ds) = true then
        (if validDate (digitsVal ys) (digitsVal ms) (digitsVal ds) = true then
          some (⟨digitsVal ys, digitsVal ms, digitsVal ds⟩ : Date)
        else none)
      else none) = some dt := h
  split_ifs at h with hg hv
  · simp only [Option.some.injEq] at h
    subst h
    simp only [Bool.and_eq_true] at hg
    obtain ⟨⟨hgy, hgm⟩, hgd⟩ := hg
    simp only [digitGroup, Bool.and_eq_true, decide_eq_true_eq] at hgy hgm hgd
    obtain ⟨⟨hy0, hy2⟩, hy3⟩ := hgy
    obtain ⟨⟨hm0, hm2⟩, hm3⟩ := hgm
    obtain ⟨⟨hd0, hd2⟩, hd3⟩ := hgd
    have hy1 : ∀ c ∈ ys, isDigitC c = true := by simpa [List.all_eq_true] using hy0
    have hm1 : ∀ c ∈ ms, isDigitC c = true := by simpa [List.all_eq_true] using hm0
    have hd1 : ∀ c ∈ ds, isDigitC c = true := by simpa [List.all_eq_true] using hd0
    refine ⟨hv, ?_, ?_, ?_, ?_, ?_, ?_⟩
    · calc digitsVal ys < 10 ^ ys.length := digitsVal_lt ys hy0
        _ ≤ 10 ^ 4 := Nat.pow_le_pow_right (by norm_num) hy3
    · calc digitsVal ms < 10 ^ ms.length := digitsVal_lt ms hm0
        _ ≤ 10 ^ 2 := Nat.pow_le_pow_right (by norm_num) hm3
    · calc digitsVal ds < 10 ^ ds.length := digitsVal_lt ds hd0
        _ ≤ 10 ^ 2 := Nat.pow_le_pow_right (by norm_num) hd3
    · rcases ys with _ | ⟨c0, ys'⟩
      · simp at hy2
      · exact ⟨c0, ys' ++ '-' :: (ms ++ '-' :: ds), by rw [← hjoin]; rfl,
          hy1 c0 (by simp)⟩
    · intro c hc
      rw [← hjoin] at hc
      simp only [List.mem_append, List.mem_cons] at hc
      rcases hc with hc | rfl | hc | rfl | hc
      · exact Or.inl (hy1 c hc)
      · exact Or.inr rfl
      · exact Or.inl (hm1 c hc)
      · exact Or.inr rfl
      · exact Or.inl (hd1 c hc)
    · rw [← hjoin]
      simp only [List.length_append, List.length_cons]
      omega

/-! ## Lemmas about token classification -/

theorem contains_eq_false {l : List Char} {a : Char} (h : ∀ c ∈ l, c ≠ a) :
    l.contains a = false := by
  have : a ∉ l := fun hmem => (h a hmem) rfl
  simpa using this

theorem utf8Len_cons (c : Char) (l : List Char) :
    utf8Len (c :: l) = c.utf8Size + utf8Len l := by
  simp [utf8Len]

theorem parseDate_token_facts {w : String} {dt : Date} (h : parseDate w = some dt) :
    w.data.head? ≠ some '+' ∧ w.data.head? ≠ some '@' ∧ startsWithDue w = false ∧
      w.data.contains ':' = false ∧ w.data.contains '=' = false ∧
      prioShaped w = false ∧ w ≠ "x" ∧ cleanTok w.data := by
  obtain ⟨_, _, _, _, ⟨c0, rest, hw, hc0⟩, hmem, hlen⟩ := parseDateChars_inv h
  refine ⟨?_, ?_, ?_, ?_, ?_, ?_, ?_, ?_⟩
  · rw [hw]
    intro heq
    simp only [List.head?_cons, Option.some.injEq] at heq
    subst heq
    exact absurd hc0 (by decide)
  · rw [hw]
    intro heq
    simp only [List.head?_cons, Option.some.injEq] at heq
    subst heq
    exact absurd hc0 (by decide)
  · unfold startsWithDue
    rw [hw]
    split
    · next heq =>
      have : c0 = 'd' := by injection heq
      subst this
      exact absurd hc0 (by decide)
    · rfl
  · refine contains_eq_false (fun c hc hceq => ?_)
    subst hceq
    rcases hmem ':' hc with hd | hdash
    · exact absurd hd (by decide)
    · exact absurd hdash (by decide)
  · refine contains_eq_false (fun c hc hceq => ?_)
    subst hceq
    rcases hmem '=' hc with hd | hdash
    · exact absurd hd (by decide)
    · exact absurd hdash (by decide)
  · unfold prioShaped
    rw [hw]
    have : (((c0 :: rest).head? == some '(') : Bool) = false := by
      simp only [List.head?_cons, beq_eq_false_iff_ne, ne_eq, Option.some.injEq]
      intro heq
      subst heq
      exact absurd hc0 (by decide)
    rw [this]
    simp
  · intro heq
    rw [heq] at hw
    have : c0 = 'x' := by
      have h2 := hw.symm
      injection h2
    subst this
    exact absurd hc0 (by decide)
  · refine ⟨by rw [hw]; simp, fun c hc => ?_⟩
    rcases hmem c hc with hd | rfl
    · exact isDigitC_not_ws hd
    · decide

theorem prioShaped_elim {w : String} (h : prioShaped w = true) :
    ∃ p : Char, w.data = ['(', p, ')'] ∧ p.utf8Size = 1 ∧ w.data[1]? = some p := by
  unfold prioShaped at h
  simp only [Bool.and_eq_true, beq_iff_eq] at h
  obtain ⟨⟨hlen, hhead⟩, hlast⟩ := h
  rcases hd : w.data with _ | ⟨c, rest⟩
  · rw [hd] at hhead
    exact absurd hhead (by simp)
  rw [hd] at hhead hlast hlen
  have hc : c = '(' := by simpa using hhead
  subst hc
  rcases rest with _ | ⟨p, rest2⟩
  · simp at hlast
  rcases rest2 with _ | ⟨q, rest3⟩
  · have hp : p = ')' := by simpa using hlast
    subst hp
    rw [utf8Len_cons, utf8Len_cons, show utf8Len [] = 0 from rfl,
      show ('(' : Char).utf8Size = 1 from by decide,
      show (')' : Char).utf8Size = 1 from by decide] at hlen
    exact absurd hlen (by decide)
  rcases rest3 with _ | ⟨r, rest4⟩
  · have hq : q = ')' := by simpa using hlast
    subst hq
    rw [utf8Len_cons, utf8Len_cons, utf8Len_cons, show utf8Len [] = 0 from rfl,
      show ('(' : Char).utf8Size = 1 from by decide,
      show (')' : Char).utf8Size = 1 from by decide] at hlen
    exact ⟨p, rfl, by omega, rfl⟩
  · exfalso
    rw [utf8Len_cons, utf8Len_cons, utf8Len_cons, utf8Len_cons,
      show ('(' : Char).utf8Size = 1 from by decide] at hlen
    have hp := Char.utf8Size_pos p
    have hq := Char.utf8Size_pos q
    have hr := Char.utf8Size_pos r
    omega

theorem prioShaped_mk {p : Char} (hp : p.utf8Size = 1) :
    prioShaped (String.mk ['(', p, ')']) = true := by
  unfold prioShaped
  have h3 : utf8Len ['(', p, ')'] = 3 := by
    rw [utf8Len_cons, utf8Len_cons, utf8Len_cons, hp, show utf8Len [] = 0 from rfl,
      show ('(' : Char).utf8Size = 1 from by decide,
      show (')' : Char).utf8Size = 1 from by decide]
  rw [h3]
  simp

/-- A token that the classification loop always sends to `content`:
no `+`/`@` head, no `due:` prefix, no `':'` and no `'='`. -/
def contentTok (w : String) : Prop :=
  w.data.head? ≠ some '+' ∧ w.data.head? ≠ some '@' ∧ startsWithDue w = false ∧
    w.data.contains ':' = false ∧ w.data.contains '=' = false

instance (w : String) : Decidable (contentTok w) := by
  unfold contentTok
  infer_instance

/-- The initial accumulator of the classification loop. -/
def initAcc : DescAcc := ⟨[], none, none, none, none⟩

/-! ## Lemmas about the parse pipeline -/

theorem parseMarker_x (rest : List String) : parseMarker ("x" :: rest) = (true, rest) := rfl

theorem parseMarker_not_x {w : String} (hw : w ≠ "x") (rest : List String) :
    parseMarker (w :: rest) = (false, w :: rest) := by
  unfold parseMarker
  split
  · next heq =>
    exact absurd (by injection heq) hw
  · rfl

theorem parsePriority_shaped {w : String} (hw : prioShaped w = true) (rest : List String) :
    parsePriority (w :: rest) = (w.data[1]?, rest) := by
  simp [parsePriority, hw]

theorem parsePriority_not {w : String} (hw : prioShaped w = false) (rest : List String) :
    parsePriority (w :: rest) = (none, w :: rest) := by
  simp [parsePriority, hw]

theorem parseDates_false_some {tokens : List String} {d : Date}
    (h : tokens[0]?.bind parseDate = some d) :
    parseDates false tokens = (none, some d, tokens.drop 1) := by
  unfold parseDates
  rw [h]

theorem parseDates_true_both {tokens : List String} {cd cr : Date}
    (h1 : tokens[0]?.bind parseDate = some cd)
    (h2 : tokens[1]?.bind parseDate = some cr) :
    parseDates true tokens = (some cd, some cr, tokens.drop 2) := by
  unfold parseDates
  rw [h1, h2]

theorem parseDates_true_single {tokens : List String} {d : Date}
    (h1 : tokens[0]?.bind parseDate = some d)
    (h2 : tokens[1]?.bind parseDate = none) :
    parseDates true tokens = (none, none, tokens) := by
  unfold parseDates
  rw [h1, h2]

theorem parseDates_none (c : Bool) {tokens : List String}
    (h : tokens[0]?.bind parseDate = none) :
    parseDates c tokens = (none, none, tokens) := by
  cases c <;> (unfold parseDates; rw [h])

theorem parseDates_false_cd (tokens : List String) :
    (parseDates false tokens).1 = none := by
  unfold parseDates
  cases h : tokens[0]?.bind parseDate <;> rfl

theorem parseTokens_completion (tokens : List String) :
    (Todo.parseTokens tokens).completion = (parseMarker tokens).1 := rfl

theorem parseTokens_completion_date (tokens : List String) :
    (Todo.parseTokens tokens).completion_date =
      (parseDates (parseMarker tokens).1 (parsePriority (parseMarker tokens).2).2).1 := rfl

/-! ## Lemmas about the classification loop -/

theorem classify_content {w : String} (hw : contentTok w) (acc : DescAcc) :
    classify acc w = { acc with content := acc.content ++ [w] } := by
  obtain ⟨h1, h2, h3, h4, h5⟩ := hw
  have hn : ¬(acc.supplement = none ∧
      (w.data.contains ':' || w.data.contains '=') = true) := by
    rintro ⟨-, hor⟩
    rw [h4, h5] at hor
    simp at hor
  unfold classify
  rw [if_neg h1, if_neg h2, h3]
  simp only [Bool.false_eq_true, if_false]
  rw [if_neg hn]

theorem classify_project {w : String} (hw : w.data.head? = some '+') (acc : DescAcc) :
    classify acc w = { acc with project := some (String.mk w.data.tail) } := by
  unfold classify
  rw [if_pos hw]

theorem startsWithDue_elim {w : String} (hw : startsWithDue w = true) :
    ∃ rest, w.data = 'd' :: 'u' :: 'e' :: ':' :: rest := by
  unfold startsWithDue at hw
  split at hw
  · next heq => exact ⟨_, heq⟩
  · exact absurd hw (by simp)

theorem classify_due {w : String} (hw : startsWithDue w = true) (acc : DescAcc) :
    classify acc w =
      { acc with
        supplement := some w
        due := match parseDateChars (w.data.drop 4) with
          | some d => some d
          | none => acc.due } := by
  obtain ⟨rest, heq⟩ := startsWithDue_elim hw
  unfold classify
  rw [if_neg (by rw [heq]; simp), if_neg (by rw [heq]; simp), hw]
  simp only [if_true]
  cases h : parseDateChars (w.data.drop 4) <;> simp [h]

theorem classify_kv {w : String} (h1 : w.data.head? ≠ some '+')
    (h2 : w.data.head? ≠ some '@') (h3 : startsWithDue w = false) {acc : DescAcc}
    (h4 : acc.supplement = none)
    (h5 : w.data.contains ':' = true ∨ w.data.contains '=' = true) :
    classify acc w = { acc with supplement := some w } := by
  have hp : acc.supplement = none ∧
      (w.data.contains ':' || w.data.contains '=') = true := by
    refine ⟨h4, ?_⟩
    rcases h5 with h | h
    · rw [h]; rfl
    · rw [h, Bool.or_true]
  unfold classify
  rw [if_neg h1, if_neg h2, h3]
  simp only [Bool.false_eq_true, if_false]
  rw [if_pos hp]

theorem classify_content_sub (acc : DescAcc) (v : String) :
    (classify acc v).content = acc.content ∨
      (classify acc v).content = acc.content ++ [v] := by
  unfold classify
  split_ifs with h1 h2 hd hkv
  · left; rfl
  · left; rfl
  · left
    cases h : parseDateChars (v.data.drop 4) <;> simp [h]
  · left; rfl
  · right; rfl

/-- A token whose classification never touches the supplement slot. -/
def keepsSup (v : String) : Prop :=
  startsWithDue v = false ∧
    (v.data.head? = some '+' ∨ v.data.head? = some '@' ∨
      (v.data.contains ':' = false ∧ v.data.contains '=' = false))

instance (v : String) : Decidable (keepsSup v) := by
  unfold keepsSup
  infer_instance

theorem classify_keepsSup {v : String} (h : keepsSup v) (acc : DescAcc) :
    (classify acc v).supplement = acc.supplement := by
  obtain ⟨hdue, h3⟩ := h
  unfold classify
  split_ifs with h1 h2 hd hkv
  · rfl
  · rfl
  · rw [hdue] at hd
    exact absurd hd (by simp)
  · rcases h3 with hp | hc | ⟨hc1, hc2⟩
    · exact absurd hp h1
    · exact absurd hc h2
    · rcases hkv with ⟨-, hor⟩
      rw [hc1, hc2] at hor
      exact absurd hor (by simp)
  · rfl

theorem classify_sup_due_preserved {acc : DescAcc} {s : String} (v : String)
    (hs : acc.supplement = some s) (hdue : startsWithDue s = true) :
    ∃ s', (classify acc v).supplement = some s' ∧ startsWithDue s' = true := by
  unfold classify
  split_ifs with h1 h2 hd hkv
  · exact ⟨s, hs, hdue⟩
  · exact ⟨s, hs, hdue⟩
  · refine ⟨v, ?_, hd⟩
    cases h : parseDateChars (v.data.drop 4) <;> simp [h]
  · rw [hkv.1] at hs
    exact absurd hs (by simp)
  · exact ⟨s, hs, hdue⟩

theorem foldl_classify_content :
    ∀ (ws : List String), (∀ w ∈ ws, contentTok w) →
      ∀ acc, ws.foldl classify acc = { acc with content := acc.content ++ ws }
  | [], _, acc => by simp
  | w :: ws', h, acc => by
    rw [List.foldl_cons, classify_content (h w (by simp)) acc,
      foldl_classify_content ws' (fun v hv => h v (by simp [hv]))]
    simp

theorem foldl_content_extend :
    ∀ (ws : List String) (acc : DescAcc),
      ∃ extra, (ws.foldl classify acc).content = acc.content ++ extra
  | [], acc => ⟨[], by simp⟩
  | w :: ws', acc => by
    obtain ⟨extra, hx⟩ := foldl_content_extend ws' (classify acc w)
    rcases classify_content_sub acc w with hc | hc
    · exact ⟨extra, by rw [List.foldl_cons, hx, hc]⟩
    · exact ⟨w :: extra, by rw [List.foldl_cons, hx, hc]; simp⟩

theorem foldl_keepsSup :
    ∀ (ws : List String), (∀ v ∈ ws, keepsSup v) →
      ∀ acc, (ws.foldl classify acc).supplement = acc.supplement
  | [], _, acc => rfl
  | w :: ws', h, acc => by
    rw [List.foldl_cons, foldl_keepsSup ws' (fun v hv => h v (by simp [hv])),
      classify_keepsSup (h w (by simp))]

theorem foldl_sup_due :
    ∀ (ws : List String) (acc : DescAcc) (s : String),
      acc.supplement = some s → startsWithDue s = true →
      ∃ s', (ws.foldl classify acc).supplement = some s' ∧ startsWithDue s' = true
  | [], acc, s, hs, hdue => ⟨s, hs, hdue⟩
  | w :: ws', acc, s, hs, hdue => by
    rw [List.foldl_cons]
    obtain ⟨s', hs', hdue'⟩ := classify_sup_due_preserved w hs hdue
    exact foldl_sup_due ws' (classify acc w) s' hs' hdue'

theorem foldl_not_content :
    ∀ (ws : List String) (w : String), w ∉ ws →
      ∀ acc : DescAcc, w ∉ acc.content → w ∉ (ws.foldl classify acc).content
  | [], w, _, acc, hacc => hacc
  | v :: ws', w, hw, acc, hacc => by
    rw [List.foldl_cons]
    refine foldl_not_content ws' w (fun hmem => hw (by simp [hmem])) _ ?_
    rcases classify_content_sub acc v with hc | hc <;> rw [hc]
    · exact hacc
    · intro hmem
      rcases List.mem_append.mp hmem with hmem | hmem
      · exact hacc hmem
      · simp only [List.mem_singleton] at hmem
        subst hmem
        exact hw (by simp)

/-! ## Claim C2: the single-date branch of `Todo::parse` -/

/-- C2 (counterexample): the claim says a lone leading date is consumed as
`creation_date` "regardless of completion state", so on
`"x 2024-01-01 pay rent"` the parsed Task should have
`creation_date = 2024-01-01` with the date token absent from `content`.
The code's `(false, Some(cr), _)` match arm fires only when the completion
marker is absent: here `creation_date` is `none` and the date token stays in
`content`. -/
theorem claim2_counterexample :
    (Todo.parse "x 2024-01-01 pay rent").creation_date = none ∧
      (Todo.parse "x 2024-01-01 pay rent").description.content =
        "2024-01-01 pay rent" := by decide

theorem parse_cd_none (line : String) (h : (Todo.parse line).completion = false) :
    (Todo.parse line).completion_date = none := by
  have h' : (parseMarker (tokenizeStr (strTrim line))).1 = false := h
  show (parseDates (parseMarker (tokenizeStr (strTrim line))).1
    (parsePriority (parseMarker (tokenizeStr (strTrim line))).2).2).1 = none
  rw [h']
  exact parseDates_false_cd _

/-- C2 (amended): after marker and priority, a next token that alone parses
as a date is consumed as `creation_date` only when the completion marker is
absent.  For a completed line `x <date> <rest>` whose token after the date is
not a date, neither date field is set and the date token becomes the first
content token. -/
theorem claim2_theorem :
    (∀ (w : String) (rest : List String) (d : Date),
      parseDate w = some d →
        (Todo.parseTokens (w :: rest)).completion = false ∧
          (Todo.parseTokens (w :: rest)).creation_date = some d) ∧
    (∀ (w : String) (rest : List String) (d : Date),
      parseDate w = some d →
      rest[0]?.bind parseDate = none →
        (Todo.parseTokens ("x" :: w :: rest)).completion = true ∧
          (Todo.parseTokens ("x" :: w :: rest)).creation_date = none ∧
          (Todo.parseTokens ("x" :: w :: rest)).completion_date = none ∧
          (tokenize (Todo.parseTokens
            ("x" :: w :: rest)).description.content.data).head? = some w.data) := by
  constructor
  · intro w rest d h
    obtain ⟨_, _, _, _, _, hprio, hx, _⟩ := parseDate_token_facts h
    have hm := parseMarker_not_x hx rest
    have hp := parsePriority_not hprio rest
    have hd : parseDates false (w :: rest) = (none, some d, rest) := by
      simpa using @parseDates_false_some (w :: rest) d (by simpa using h)
    exact ⟨by simp [Todo.parseTokens, hm, hp, hd],
      by simp [Todo.parseTokens, hm, hp, hd]⟩
  · intro w rest d h h2
    obtain ⟨hplus, hat, hdueF, hcol, heq2, hprio, hx, hclean⟩ := parseDate_token_facts h
    have hm : parseMarker ("x" :: w :: rest) = (true, w :: rest) := rfl
    have hp := parsePriority_not hprio rest
    have hdts : parseDates true (w :: rest) = (none, none, w :: rest) :=
      parseDates_true_single (by simpa using h) (by simpa using h2)
    obtain ⟨extra, hextra⟩ := foldl_content_extend rest (classify initAcc w)
    have hacc1 : classify initAcc w = { initAcc with content := [w] } := by
      rw [classify_content ⟨hplus, hat, hdueF, hcol, heq2⟩ initAcc]
      rfl
    have hcontent : ((w :: rest).foldl classify initAcc).content = w :: extra := by
      rw [List.foldl_cons, hacc1]
      rw [hacc1] at hextra
      simpa using hextra
    refine ⟨rfl, ?_, ?_, ?_⟩
    · simp [Todo.parseTokens, hm, hp, hdts]
    · simp [Todo.parseTokens, hm, hp, hdts]
    · show (tokenize (joinSp ((parseDates (parseMarker ("x" :: w :: rest)).1
        (parsePriority (parseMarker ("x" :: w :: rest)).2).2).2.2.foldl classify
          initAcc).content).data).head? = some w.data
      rw [hm]
      show (tokenize (joinSp ((parseDates true
        (parsePriority (w :: rest)).2).2.2.foldl classify initAcc).content).data).head? =
          some w.data
      rw [hp]
      show (tokenize (joinSp ((parseDates true (w :: rest)).2.2.foldl classify
        initAcc).content).data).head? = some w.data
      rw [hdts]
      show (tokenize (joinSp ((w :: rest).foldl classify initAcc).content).data).head? =
        some w.data
      rw [hcontent]
      show (tokenize (sepJoin ((w :: extra).map String.data))).head? = some w.data
      rw [tokenize_sepJoin]
      simp [tokenize_of_clean _ hclean]

/-- C2 (witness): the amended theorem at the counterexample's inputs. -/
theorem claim2_witness :
    ((Todo.parseTokens ["2024-01-01", "Call", "mom"]).completion = false ∧
      (Todo.parseTokens ["2024-01-01", "Call", "mom"]).creation_date =
        some ⟨2024, 1, 1⟩) ∧
    ((Todo.parseTokens ["x", "2024-01-01", "pay", "rent"]).completion = true ∧
      (Todo.parseTokens ["x", "2024-01-01", "pay", "rent"]).creation_date = none ∧
      (Todo.parseTokens ["x", "2024-01-01", "pay", "rent"]).completion_date = none ∧
      (tokenize (Todo.parseTokens
        ["x", "2024-01-01", "pay", "rent"]).description.content.data).head? =
          some "2024-01-01".data) :=
  ⟨claim2_theorem.1 "2024-01-01" ["Call", "mom"] ⟨2024, 1, 1⟩ (by decide),
   claim2_theorem.2 "2024-01-01" ["pay", "rent"] ⟨2024, 1, 1⟩ (by decide) (by decide)⟩

/-! ## Claim C8: the completed/completion-date invariant -/

/-- C8: a Task produced by `Todo::parse` or `Todo::from_add` with
`completion = false` has no `completion_date`, and `Todo::mark_done`
preserves this invariant. -/
theorem claim8_theorem :
    (∀ line : String, (Todo.parse line).completion = false →
      (Todo.parse line).completion_date = none) ∧
    (∀ (today : Date) (input : String) (t : Todo),
      Todo.from_add today input = .ok t → t.completion = false →
        t.completion_date = none) ∧
    (∀ (today : Date) (t : Todo), (t.completion = false → t.completion_date = none) →
      (Todo.mark_done today t).completion = false →
        (Todo.mark_done today t).completion_date = none) := by
  refine ⟨parse_cd_none, ?_, ?_⟩
  · intro today input t hok hcomp
    simp only [Todo.from_add] at hok
    split_ifs at hok with h1 h2
    · simp only [Except.ok.injEq] at hok
      subst hok
      have := parse_cd_none input (by simpa using hcomp)
      simpa using this
    · simp only [Except.ok.injEq] at hok
      subst hok
      exact parse_cd_none input hcomp
  · intro today t hinv h3
    cases ht : t.completion <;> simp [Todo.mark_done, ht] at h3

/-- C8 (witness): the invariant theorem applied at concrete inputs. -/
theorem claim8_witness :
    (Todo.parse "2024-01-01 Call mom").completion_date = none ∧
    (⟨false, none, none, some ⟨2024, 1, 2⟩,
      ⟨"Buy milk", none, none, none, none⟩⟩ : Todo).completion_date = none ∧
    ((Todo.mark_done ⟨2024, 1, 3⟩ (Todo.parse "water")).completion = false →
      (Todo.mark_done ⟨2024, 1, 3⟩ (Todo.parse "water")).completion_date = none) :=
  ⟨claim8_theorem.1 "2024-01-01 Call mom" (by decide),
   claim8_theorem.2.1 ⟨2024, 1, 2⟩ "Buy milk" _ (by rfl) (by decide),
   claim8_theorem.2.2 ⟨2024, 1, 3⟩ (Todo.parse "water") (by decide)⟩

/-! ## Claim C7: `done` / `remove` without an argument -/

/-- C7 (counterexample): the claim says the bare inputs `done` and `remove`
report a usage error.  In the code the `if let Some(arg) = cmd.strip_prefix(..)`
has no `else` branch, so both are silent no-ops: no error is set. -/
theorem claim7_counterexample :
    execute_command ⟨2024, 1, 1⟩ ⟨["a"], false, false, false⟩
        [Todo.parse "a"] [0] "done" =
      some (⟨[Todo.parse "a"], [0], none⟩, ⟨["a"], false, false, false⟩) ∧
    execute_command ⟨2024, 1, 1⟩ ⟨["a"], false, false, false⟩
        [Todo.parse "a"] [0] "remove" =
      some (⟨[Todo.parse "a"], [0], none⟩, ⟨["a"], false, false, false⟩) :=
  ⟨rfl, rfl⟩

/-- C7 (amended): `done`/`remove` with no argument leave the collection and
view unchanged and set **no** error (silent no-op); the usage error appears
only when an argument is present but does not parse as an unsigned integer. -/
theorem claim7_theorem (today : Date) (fs : FS) (todos : List Todo)
    (view : List Nat) :
    execute_command today fs todos view "done" = some (⟨todos, view, none⟩, fs) ∧
    execute_command today fs todos view "remove" = some (⟨todos, view, none⟩, fs) ∧
    execute_command today fs todos view "done x" =
      some (⟨todos, view, some "Usage: done <ID>"⟩, fs) ∧
    execute_command today fs todos view "remove x" =
      some (⟨todos, view, some "Usage: remove <ID>"⟩, fs) :=
  ⟨rfl, rfl, rfl, rfl⟩

/-! ## Claim C6: `add` when the persistence append fails -/

/-- C6 (counterexample): the claim says a valid `add` still appends to the
in-memory collection when the persistence append fails.  In the code
`todos.push(t)` is guarded by `append_one(&t).is_ok()`, so with a failing
append the collection stays empty (and no error is reported). -/
theorem claim6_counterexample :
    execute_command ⟨2024, 1, 1⟩ ⟨[], true, false, false⟩ [] [] "add Water plants" =
      some (⟨[], [], none⟩, ⟨[], true, false, false⟩) := rfl

/-- C6 (amended): a valid `add` never surfaces a persistence error, but it
pushes the Task to the in-memory collection (and rebuilds the view) **only**
when the append succeeds; when the append fails the collection and view are
unchanged. -/
theorem claim6_theorem (today : Date) (fs : FS) (todos : List Todo)
    (view : List Nat) (input rest : String) (t : Todo)
    (h1 : (tokenizeStr (strTrim input)).head? = some "add")
    (h2 : stripPrefixStr "add " (strTrim input) = some rest)
    (h3 : Todo.from_add today (strTrim rest) = .ok t) :
    (fs.appendFails = true →
      execute_command today fs todos view input = some (⟨todos, view, none⟩, fs)) ∧
    (fs.appendFails = false →
      execute_command today fs todos view input =
        some (⟨todos ++ [t], List.range (todos.length + 1), none⟩,
          { fs with lines := fs.lines ++ [t.format] })) := by
  constructor <;> intro hf <;>
    simp [execute_command, doAdd, h1, h2, h3, append_one, hf]

/-- C6 (witness): the amended behaviour at `add Water plants`, with a failing
and a succeeding append. -/
theorem claim6_witness :
    (execute_command ⟨2024, 1, 1⟩ ⟨[], true, false, false⟩ [] [] "add Water plants" =
      some (⟨[], [], none⟩, ⟨[], true, false, false⟩)) ∧
    (execute_command ⟨2024, 1, 1⟩ ⟨[], false, false, false⟩ [] [] "add Water plants" =
      some (⟨[⟨false, none, none, some ⟨2024, 1, 1⟩,
          ⟨"Water plants", none, none, none, none⟩⟩], [0], none⟩,
        ⟨["2024-01-01 Water plants"], false, false, false⟩)) :=
  ⟨(claim6_theorem ⟨2024, 1, 1⟩ ⟨[], true, false, false⟩ [] [] "add Water plants"
      "Water plants" _ (by rfl) (by rfl) (by rfl)).1 rfl,
   (claim6_theorem ⟨2024, 1, 1⟩ ⟨[], false, false, false⟩ [] [] "add Water plants"
      "Water plants" _ (by rfl) (by rfl) (by rfl)).2 rfl⟩

/-! ## Claim C9: `due:` tokens overwrite the supplement -/

/-- C9 (counterexample): the claim says every key:value-shaped token that is
followed later by a `due:` token is lost.  On `"a:b c:d due:2024-01-01"` the
token `c:d` is key:value-shaped and followed by a `due:` token, yet it ends
up in `content` (only `a:b`, the token actually recorded as supplement, is
lost). -/
theorem claim9_counterexample :
    (Todo.parse "a:b c:d due:2024-01-01").description.supplement =
        some "due:2024-01-01" ∧
      (Todo.parse "a:b c:d due:2024-01-01").description.content = "c:d" := by decide

theorem classify_kv_occupied {w : String} (h1 : w.data.head? ≠ some '+')
    (h2 : w.data.head? ≠ some '@') (h3 : startsWithDue w = false) {acc : DescAcc}
    (h4 : acc.supplement ≠ none) :
    classify acc w = { acc with content := acc.content ++ [w] } := by
  unfold classify
  rw [if_neg h1, if_neg h2, h3]
  simp only [Bool.false_eq_true, if_false]
  rw [if_neg]
  rintro ⟨hs, -⟩
  exact h4 hs

/-- C9 (amended): a `due:`-prefixed token always overwrites the supplement; a
non-`due:` token containing `':'`/`'='` is recorded only while no supplement
exists (otherwise it falls through to content).  Consequently the *first*
supplement-eligible key:value token that is followed later by a `due:` token
is lost: the final supplement is a `due:` token distinct from it, and it is
in neither the supplement nor the content. -/
theorem claim9_theorem :
    (∀ (acc : DescAcc) (w : String), startsWithDue w = true →
      (classify acc w).supplement = some w) ∧
    (∀ (acc : DescAcc) (w : String),
      w.data.head? ≠ some '+' → w.data.head? ≠ some '@' → startsWithDue w = false →
      (w.data.contains ':' = true ∨ w.data.contains '=' = true) →
      (acc.supplement = none → classify acc w = { acc with supplement := some w }) ∧
      (acc.supplement ≠ none →
        classify acc w = { acc with content := acc.content ++ [w] })) ∧
    (∀ (pre mid post : List String) (w u : String),
      (∀ v ∈ pre, keepsSup v) →
      w.data.head? ≠ some '+' → w.data.head? ≠ some '@' → startsWithDue w = false →
      (w.data.contains ':' = true ∨ w.data.contains '=' = true) →
      startsWithDue u = true → w ∉ mid → w ∉ post →
      ((pre ++ w :: mid ++ u :: post).foldl classify initAcc).supplement.isSome ∧
      startsWithDue
        (((pre ++ w :: mid ++ u :: post).foldl classify
          initAcc).supplement.getD "") = true ∧
      ((pre ++ w :: mid ++ u :: post).foldl classify initAcc).supplement ≠ some w ∧
      w ∉ ((pre ++ w :: mid ++ u :: post).foldl classify initAcc).content) := by
  refine ⟨?_, ?_, ?_⟩
  · intro acc w hw
    rw [classify_due hw acc]
  · intro acc w h1 h2 h3 h5
    exact ⟨fun h4 => classify_kv h1 h2 h3 h4 h5,
      fun h4 => classify_kv_occupied h1 h2 h3 h4⟩
  · intro pre mid post w u hpre h1 h2 h3 h5 hu hwmid hwpost
    have hwpre : w ∉ pre := by
      intro hmem
      obtain ⟨-, hcase⟩ := hpre w hmem
      rcases hcase with hp | hc | ⟨hc1, hc2⟩
      · exact h1 hp
      · exact h2 hc
      · rcases h5 with h | h
        · rw [hc1] at h; exact absurd h (by simp)
        · rw [hc2] at h; exact absurd h (by simp)
    set acc1 := pre.foldl classify initAcc with hacc1
    have hsup1 : acc1.supplement = none := by
      rw [hacc1, foldl_keepsSup pre hpre initAcc]
      rfl
    have hcont1 : w ∉ acc1.content := by
      rw [hacc1]
      exact foldl_not_content pre w hwpre initAcc (by simp [initAcc])
    have hstep : classify acc1 w = { acc1 with supplement := some w } :=
      classify_kv h1 h2 h3 hsup1 h5
    set acc2 := classify acc1 w with hacc2
    have hcont2 : w ∉ acc2.content := by rw [hstep]; exact hcont1
    set acc3 := mid.foldl classify acc2 with hacc3
    have hcont3 : w ∉ acc3.content := by
      rw [hacc3]
      exact foldl_not_content mid w hwmid acc2 hcont2
    set acc4 := classify acc3 u with hacc4
    have hsup4 : acc4.supplement = some u := by rw [hacc4, classify_due hu acc3]
    have hcont4 : w ∉ acc4.content := by
      rcases classify_content_sub acc3 u with hc | hc
      · rw [hacc4, hc]; exact hcont3
      · rw [hacc4, hc]
        intro hmem
        rcases List.mem_append.mp hmem with hmem | hmem
        · exact hcont3 hmem
        · simp only [List.mem_singleton] at hmem
          subst hmem
          rw [hu] at h3
          exact absurd h3 (by simp)
    have hfold : (pre ++ w :: mid ++ u :: post).foldl classify initAcc =
        post.foldl classify acc4 := by
      simp only [List.foldl_append, List.foldl_cons]
    obtain ⟨s, hs, hsdue⟩ := foldl_sup_due post acc4 u hsup4 hu
    have hcont5 : w ∉ (post.foldl classify acc4).content :=
      foldl_not_content post w hwpost acc4 hcont4
    rw [hfold]
    refine ⟨by rw [hs]; rfl, by rw [hs]; exact hsdue, ?_, hcont5⟩
    rw [hs]
    intro heq
    simp only [Option.some.injEq] at heq
    subst heq
    rw [hsdue] at h3
    exact absurd h3 (by simp)

/-- C9 (witness): the amended theorem at concrete tokens. -/
theorem claim9_witness :
    ((classify initAcc "due:2024-01-05").supplement = some "due:2024-01-05") ∧
    (classify initAcc "a:b" = { initAcc with supplement := some "a:b" }) ∧
    ((["call", "a:b", "due:2024-01-05"].foldl classify initAcc).supplement.isSome ∧
      startsWithDue ((["call", "a:b", "due:2024-01-05"].foldl classify
        initAcc).supplement.getD "") = true ∧
      (["call", "a:b", "due:2024-01-05"].foldl classify initAcc).supplement ≠
        some "a:b" ∧
      "a:b" ∉ (["call", "a:b", "due:2024-01-05"].foldl classify initAcc).content) :=
  ⟨claim9_theorem.1 initAcc "due:2024-01-05" (by decide),
   (claim9_theorem.2.1 initAcc "a:b" (by decide) (by decide) (by decide)
     (Or.inl (by decide))).1 rfl,
   claim9_theorem.2.2 ["call"] [] [] "a:b" "due:2024-01-05" (by decide) (by decide)
     (by decide) (by decide) (Or.inl (by decide)) (by decide) (by decide) (by decide)⟩

/-! ## Claim C4: an error leaves the state unchanged -/

set_option maxHeartbeats 2000000 in
/-- C4: whenever `execute_command` returns an error message, the returned
collection and view are exactly the input collection and view. -/
theorem claim4_theorem (today : Date) (fs : FS) (todos : List Todo)
    (view : List Nat) (input : String) (r : CommandResult) (fs2 : FS)
    (hex : execute_command today fs todos view input = some (r, fs2))
    (herr : r.error.isSome = true) : r.todos = todos ∧ r.view = view := by
  unfold execute_command doList doAdd doDone doRemove doClosest doImportant at hex
  simp only [] at hex
  repeat' split at hex
  all_goals first
    | exact Option.noConfusion hex
    | (simp only [Option.some.injEq, Prod.mk.injEq] at hex
       obtain ⟨h1, h2⟩ := hex
       subst h1
       first
         | exact ⟨rfl, rfl⟩
         | simp at herr)

/-- C4 (witness): the theorem at an unknown command over a one-element
collection. -/
theorem claim4_witness :
    (⟨[Todo.parse "a"], [0], some "Unknown command: frobnicate"⟩ :
      CommandResult).todos = [Todo.parse "a"] ∧
    (⟨[Todo.parse "a"], [0], some "Unknown command: frobnicate"⟩ :
      CommandResult).view = [0] :=
  claim4_theorem ⟨2024, 1, 1⟩ ⟨[], false, false, false⟩ [Todo.parse "a"] [0]
    "frobnicate" _ _ (by rfl) (by rfl)

/-! ## Membership lemmas for the filter/sort pipelines -/

theorem mem_insertByKey {κ : Type} (lt : κ → κ → Bool) (key : Nat × κ → κ)
    (x a : Nat × κ) : ∀ l : List (Nat × κ),
      (a ∈ insertByKey lt key x l ↔ a = x ∨ a ∈ l)
  | [] => by simp [insertByKey]
  | y :: ys => by
    unfold insertByKey
    by_cases hc : lt (key y) (key x)
    · rw [if_pos hc]
      simp only [List.mem_cons, mem_insertByKey lt key x a ys]
      tauto
    · rw [if_neg hc]
      simp

theorem mem_sortByKey {κ : Type} (lt : κ → κ → Bool) (key : Nat × κ → κ)
    (a : Nat × κ) : ∀ l : List (Nat × κ), a ∈ sortByKey lt key l ↔ a ∈ l
  | [] => by simp [sortByKey]
  | x :: xs => by
    unfold sortByKey
    rw [mem_insertByKey, mem_sortByKey lt key a xs]
    simp

theorem closestPairsFrom_mem :
    ∀ (ts : List Todo) (i0 : Nat) (p : Nat × Date), p ∈ closestPairsFrom i0 ts →
      i0 ≤ p.1 ∧ p.1 - i0 < ts.length ∧
      ∃ t, ts[p.1 - i0]? = some t ∧ t.completion = false ∧
        t.description.due = some p.2
  | [], i0, p, hp => by simp [closestPairsFrom] at hp
  | t :: ts', i0, p, hp => by
    unfold closestPairsFrom at hp
    rcases List.mem_append.mp hp with hp | hp
    · cases hc : t.completion <;> rw [hc] at hp
      · simp only [Bool.not_false, if_true] at hp
        cases hd : t.description.due <;> rw [hd] at hp
        · simp at hp
        · simp only [List.mem_singleton] at hp
          subst hp
          exact ⟨le_refl _, by simp, t, by simp, hc, hd⟩
      · simp at hp
    · obtain ⟨h1, h2, t', ht', hc', hd'⟩ := closestPairsFrom_mem ts' (i0 + 1) p hp
      have hgt : i0 + 1 ≤ p.1 := h1
      refine ⟨by omega, by simp; omega, t', ?_, hc', hd'⟩
      have heq : p.1 - i0 = (p.1 - (i0 + 1)) + 1 := by omega
      rw [heq]
      simpa using ht'

theorem importantPairsFrom_mem :
    ∀ (ts : List Todo) (i0 : Nat) (p : Nat × Char), p ∈ importantPairsFrom i0 ts →
      i0 ≤ p.1 ∧ p.1 - i0 < ts.length ∧
      ∃ t, ts[p.1 - i0]? = some t ∧ t.completion = false ∧
        t.priority = some p.2
  | [], i0, p, hp => by simp [importantPairsFrom] at hp
  | t :: ts', i0, p, hp => by
    unfold importantPairsFrom at hp
    rcases List.mem_append.mp hp with hp | hp
    · cases hc : t.completion <;> rw [hc] at hp
      · simp only [Bool.not_false, if_true] at hp
        cases hd : t.priority <;> rw [hd] at hp
        · simp at hp
        · simp only [List.mem_singleton] at hp
          subst hp
          exact ⟨le_refl _, by simp, t, by simp, hc, hd⟩
      · simp at hp
    · obtain ⟨h1, h2, t', ht', hc', hd'⟩ := importantPairsFrom_mem ts' (i0 + 1) p hp
      have hgt : i0 + 1 ≤ p.1 := h1
      refine ⟨by omega, by simp; omega, t', ?_, hc', hd'⟩
      have heq : p.1 - i0 = (p.1 - (i0 + 1)) + 1 := by omega
      rw [heq]
      simpa using ht'

/-! ## Claim C10: view validity is preserved and no index is out of bounds -/

theorem execute_word (today : Date) (fs : FS) (todos : List Todo)
    (view : List Nat) (input : String) (word : String)
    (h0 : (tokenizeStr (strTrim input)).head? = some word) :
    execute_command today fs todos view input =
      (if word = "list" then some (doList fs)
       else if word = "add" then some (doAdd today fs todos view (strTrim input))
       else if word = "done" then doDone today fs todos view (strTrim input)
       else if word = "remove" then doRemove fs todos view (strTrim input)
       else if word = "closest" then some (doClosest fs todos)
       else if word = "important" then some (doImportant fs todos)
       else some (⟨todos, view, some ("Unknown command: " ++ word)⟩, fs)) := by
  unfold execute_command
  rw [h0]

theorem execute_no_word (today : Date) (fs : FS) (todos : List Todo)
    (view : List Nat) (input : String)
    (h0 : (tokenizeStr (strTrim input)).head? = none) :
    execute_command today fs todos view input = some (⟨todos, view, none⟩, fs) := by
  unfold execute_command
  rw [h0]

theorem range_view_valid (ts : List Todo) :
    ∀ i ∈ List.range ts.length, i < ts.length := fun _ hi => List.mem_range.mp hi

theorem doAdd_strip_none {cmd : String} (h : stripPrefixStr "add " cmd = none)
    (today : Date) (fs : FS) (todos : List Todo) (view : List Nat) :
    doAdd today fs todos view cmd = (⟨todos, view, some "Usage: add <todo>"⟩, fs) := by
  unfold doAdd
  rw [h]

theorem doAdd_error {cmd rest e : String} (h : stripPrefixStr "add " cmd = some rest)
    {today : Date} (he : Todo.from_add today (strTrim rest) = .error e)
    (fs : FS) (todos : List Todo) (view : List Nat) :
    doAdd today fs todos view cmd = (⟨todos, view, some e⟩, fs) := by
  unfold doAdd
  simp only [h]
  rw [he]

theorem doAdd_ok {cmd rest : String} (h : stripPrefixStr "add " cmd = some rest)
    {today : Date} {t : Todo} (ht : Todo.from_add today (strTrim rest) = .ok t)
    {fs fs' : FS} {b : Bool} (hap : append_one fs t = (fs', b))
    (todos : List Todo) (view : List Nat) :
    doAdd today fs todos view cmd =
      if b then
        (⟨todos ++ [t], List.range (todos ++ [t]).length, none⟩, fs')
      else (⟨todos, view, none⟩, fs') := by
  unfold doAdd
  simp only [h, ht, hap]
  cases b <;> rfl

theorem doDone_strip_none {cmd : String} (h : stripPrefixStr "done " cmd = none)
    (today : Date) (fs : FS) (todos : List Todo) (view : List Nat) :
    doDone today fs todos view cmd = some (⟨todos, view, none⟩, fs) := by
  unfold doDone
  rw [h]

theorem doDone_parse_none {cmd arg : String}
    (h : stripPrefixStr "done " cmd = some arg)
    (hpu : parseUsize (strTrim arg) = none)
    (today : Date) (fs : FS) (todos : List Todo) (view : List Nat) :
    doDone today fs todos view cmd =
      some (⟨todos, view, some "Usage: done <ID>"⟩, fs) := by
  unfold doDone
  simp only [h]
  rw [hpu]

theorem doDone_bad_id {cmd arg : String} {id : Nat}
    (h : stripPrefixStr "done " cmd = some arg)
    (hpu : parseUsize (strTrim arg) = some id)
    {view : List Nat} (hid : ¬(1 ≤ id ∧ id ≤ view.length))
    (today : Date) (fs : FS) (todos : List Todo) :
    doDone today fs todos view cmd =
      some (⟨todos, view, some "Invalid ID"⟩, fs) := by
  unfold doDone
  simp only [h, hpu]
  rw [if_neg hid]

theorem doDone_ok {cmd arg : String} {id idx : Nat}
    (h : stripPrefixStr "done " cmd = some arg)
    (hpu : parseUsize (strTrim arg) = some id)
    {view : List Nat} (hid : 1 ≤ id ∧ id ≤ view.length)
    (hvi : view[id - 1]? = some idx)
    {todos : List Todo} (hlt : idx < todos.length)
    (today : Date) (fs : FS) :
    doDone today fs todos view cmd =
      some (⟨load_all (rewrite_file fs (todos.set idx
          (Todo.mark_done today (todos.get ⟨idx, hlt⟩)))).1,
        List.range (load_all (rewrite_file fs (todos.set idx
          (Todo.mark_done today (todos.get ⟨idx, hlt⟩)))).1).length, none⟩,
        (rewrite_file fs (todos.set idx
          (Todo.mark_done today (todos.get ⟨idx, hlt⟩)))).1) := by
  unfold doDone
  simp only [h, hpu]
  rw [if_pos hid]
  simp only [hvi]
  rw [dif_pos hlt]
  rfl

theorem doRemove_strip_none {cmd : String} (h : stripPrefixStr "remove " cmd = none)
    (fs : FS) (todos : List Todo) (view : List Nat) :
    doRemove fs todos view cmd = some (⟨todos, view, none⟩, fs) := by
  unfold doRemove
  rw [h]

theorem doRemove_parse_none {cmd arg : String}
    (h : stripPrefixStr "remove " cmd = some arg)
    (hpu : parseUsize (strTrim arg) = none)
    (fs : FS) (todos : List Todo) (view : List Nat) :
    doRemove fs todos view cmd =
      some (⟨todos, view, some "Usage: remove <ID>"⟩, fs) := by
  unfold doRemove
  simp only [h]
  rw [hpu]

theorem doRemove_bad_id {cmd arg : String} {id : Nat}
    (h : stripPrefixStr "remove " cmd = some arg)
    (hpu : parseUsize (strTrim arg) = some id)
    {view : List Nat} (hid : ¬(1 ≤ id ∧ id ≤ view.length))
    (fs : FS) (todos : List Todo) :
    doRemove fs todos view cmd =
      some (⟨todos, view, some "Invalid ID"⟩, fs) := by
  unfold doRemove
  simp only [h, hpu]
  rw [if_neg hid]

theorem doRemove_ok {cmd arg : String} {id idx : Nat}
    (h : stripPrefixStr "remove " cmd = some arg)
    (hpu : parseUsize (strTrim arg) = some id)
    {view : List Nat} (hid : 1 ≤ id ∧ id ≤ view.length)
    (hvi : view[id - 1]? = some idx)
    {todos : List Todo} (hlt : idx < todos.length)
    (fs : FS) :
    doRemove fs todos view cmd =
      some (⟨load_all (rewrite_file fs (todos.eraseIdx idx)).1,
        List.range (load_all (rewrite_file fs (todos.eraseIdx idx)).1).length, none⟩,
        (rewrite_file fs (todos.eraseIdx idx)).1) := by
  unfold doRemove
  simp only [h, hpu]
  rw [if_pos hid]
  simp only [hvi]
  rw [if_pos hlt]

set_option maxHeartbeats 800000 in
/-- C10: if every view entry indexes into the collection, `execute_command`
never hits an out-of-bounds index (it returns `some`), and the returned view
again only holds valid indices into the returned collection. -/
theorem claim10_theorem (today : Date) (fs : FS) (todos : List Todo)
    (view : List Nat) (input : String)
    (hview : ∀ i ∈ view, i < todos.length) :
    ∃ (r : CommandResult) (fs2 : FS),
      execute_command today fs todos view input = some (r, fs2) ∧
        ∀ i ∈ r.view, i < r.todos.length := by
  rcases h0 : (tokenizeStr (strTrim input)).head? with _ | word
  · exact ⟨_, _, execute_no_word today fs todos view input h0, hview⟩
  rw [execute_word today fs todos view input word h0]
  by_cases h1 : word = "list"
  · rw [if_pos h1]
    exact ⟨_, _, rfl, range_view_valid _⟩
  rw [if_neg h1]
  by_cases h2 : word = "add"
  · rw [if_pos h2]
    rcases hsp : stripPrefixStr "add " (strTrim input) with _ | rest
    · rw [doAdd_strip_none hsp]
      exact ⟨_, _, rfl, hview⟩
    rcases hfa : Todo.from_add today (strTrim rest) with e | t
    · rw [doAdd_error hsp hfa]
      exact ⟨_, _, rfl, hview⟩
    rcases hap : append_one fs t with ⟨fs', b⟩
    rw [doAdd_ok hsp hfa hap]
    cases b
    · exact ⟨_, _, rfl, hview⟩
    · refine ⟨_, _, rfl, ?_⟩
      intro i hi
      have := List.mem_range.mp (by simpa using hi)
      simpa using this
  rw [if_neg h2]
  by_cases h3 : word = "done"
  · rw [if_pos h3]
    rcases hsp : stripPrefixStr "done " (strTrim input) with _ | arg
    · rw [doDone_strip_none hsp]
      exact ⟨_, _, rfl, hview⟩
    rcases hpu : parseUsize (strTrim arg) with _ | id
    · rw [doDone_parse_none hsp hpu]
      exact ⟨_, _, rfl, hview⟩
    by_cases hid : 1 ≤ id ∧ id ≤ view.length
    · have hl1 : id - 1 < view.length := by omega
      rcases hvi : view[id - 1]? with _ | idx
      · rw [List.getElem?_eq_getElem hl1] at hvi
        exact absurd hvi (by simp)
      have hmem : idx ∈ view := List.getElem?_mem hvi
      have hlt : idx < todos.length := hview idx hmem
      rw [doDone_ok hsp hpu hid hvi hlt]
      exact ⟨_, _, rfl, range_view_valid _⟩
    · rw [doDone_bad_id hsp hpu hid]
      exact ⟨_, _, rfl, hview⟩
  rw [if_neg h3]
  by_cases h4 : word = "remove"
  · rw [if_pos h4]
    rcases hsp : stripPrefixStr "remove " (strTrim input) with _ | arg
    · rw [doRemove_strip_none hsp]
      exact ⟨_, _, rfl, hview⟩
    rcases hpu : parseUsize (strTrim arg) with _ | id
    · rw [doRemove_parse_none hsp hpu]
      exact ⟨_, _, rfl, hview⟩
    by_cases hid : 1 ≤ id ∧ id ≤ view.length
    · have hl1 : id - 1 < view.length := by omega
      rcases hvi : view[id - 1]? with _ | idx
      · rw [List.getElem?_eq_getElem hl1] at hvi
        exact absurd hvi (by simp)
      have hmem : idx ∈ view := List.getElem?_mem hvi
      have hlt : idx < todos.length := hview idx hmem
      rw [doRemove_ok hsp hpu hid hvi hlt]
      exact ⟨_, _, rfl, range_view_valid _⟩
    · rw [doRemove_bad_id hsp hpu hid]
      exact ⟨_, _, rfl, hview⟩
  rw [if_neg h4]
  by_cases h5 : word = "closest"
  · rw [if_pos h5]
    refine ⟨_, _, rfl, ?_⟩
    intro i hi
    show i < todos.length
    simp only [doClosest, List.mem_map] at hi
    obtain ⟨p, hp, rfl⟩ := hi
    rw [mem_sortByKey] at hp
    obtain ⟨hle, hlt, -⟩ := closestPairsFrom_mem todos 0 p hp
    omega
  rw [if_neg h5]
  by_cases h6 : word = "important"
  · rw [if_pos h6]
    refine ⟨_, _, rfl, ?_⟩
    intro i hi
    show i < todos.length
    simp only [doImportant, List.mem_map] at hi
    obtain ⟨p, hp, rfl⟩ := hi
    rw [mem_sortByKey] at hp
    obtain ⟨hle, hlt, -⟩ := importantPairsFrom_mem todos 0 p hp
    omega
  rw [if_neg h6]
  exact ⟨_, _, rfl, hview⟩

/-- C10 (witness): the preservation theorem at a concrete `done 1` over a
one-element collection with view `[0]`. -/
theorem claim10_witness :
    ∃ (r : CommandResult) (fs2 : FS),
      execute_command ⟨2024, 1, 1⟩ ⟨["a"], false, false, false⟩
        [Todo.parse "a"] [0] "done 1" = some (r, fs2) ∧
        ∀ i ∈ r.view, i < r.todos.length :=
  claim10_theorem ⟨2024, 1, 1⟩ ⟨["a"], false, false, false⟩
    [Todo.parse "a"] [0] "done 1" (by decide)

/-! ## Claim C5: the `closest` view -/

theorem dateLt_iff (a b : Date) : dateLt a b = true ↔
    (a.year < b.year ∨ (a.year = b.year ∧
      (a.month < b.month ∨ (a.month = b.month ∧ a.day < b.day)))) := by
  unfold dateLt
  simp [Bool.or_eq_true, Bool.and_eq_true, decide_eq_true_eq, beq_iff_eq]

theorem dateLt_trans {a b c : Date} (h1 : dateLt a b = true)
    (h2 : dateLt b c = true) : dateLt a c = true := by
  rw [dateLt_iff] at h1 h2 ⊢
  omega

theorem dateLt_total {a b : Date} (h1 : dateLt a b = false)
    (h2 : dateLt b a = false) : a = b := by
  cases a with
  | mk y1 m1 d1 =>
    cases b with
    | mk y2 m2 d2 =>
      have n1 : ¬(dateLt ⟨y1, m1, d1⟩ ⟨y2, m2, d2⟩ = true) := by simp [h1]
      have n2 : ¬(dateLt ⟨y2, m2, d2⟩ ⟨y1, m1, d1⟩ = true) := by simp [h2]
      rw [dateLt_iff] at n1 n2
      dsimp only at n1 n2
      simp only [Date.mk.injEq]
      refine ⟨?_, ?_, ?_⟩ <;> omega

theorem insertByKey_perm {κ : Type} (lt : κ → κ → Bool) (key : Nat × κ → κ)
    (x : Nat × κ) : ∀ l, (insertByKey lt key x l).Perm (x :: l)
  | [] => List.Perm.refl _
  | y :: ys => by
    unfold insertByKey
    by_cases hc : lt (key y) (key x)
    · rw [if_pos hc]
      exact ((insertByKey_perm lt key x ys).cons y).trans (List.Perm.swap x y ys)
    · rw [if_neg hc]

theorem sortByKey_perm {κ : Type} (lt : κ → κ → Bool) (key : Nat × κ → κ) :
    ∀ l, (sortByKey lt key l).Perm l
  | [] => List.Perm.refl _
  | x :: xs =>
    (insertByKey_perm lt key x _).trans ((sortByKey_perm lt key xs).cons x)

/-- The chronological order with index tie-break: what "ascending by due
date, stable for equal dates" means for the `(index, due)` pairs. -/
def pairLex (a b : Nat × Date) : Prop :=
  dateLt a.2 b.2 = true ∨ (a.2 = b.2 ∧ a.1 < b.1)

theorem insertByKey_pairwise_lex {x : Nat × Date} :
    ∀ {l : List (Nat × Date)}, l.Pairwise pairLex → (∀ y ∈ l, x.1 < y.1) →
      (insertByKey dateLt Prod.snd x l).Pairwise pairLex
  | [], _, _ => List.pairwise_singleton _ _
  | y :: ys, hl, hbelow => by
    obtain ⟨hy, hys⟩ := List.pairwise_cons.mp hl
    unfold insertByKey
    by_cases hc : dateLt y.2 x.2
    · rw [if_pos hc]
      refine List.pairwise_cons.mpr ⟨?_, ?_⟩
      · intro z hz
        rcases (mem_insertByKey dateLt Prod.snd x z ys).mp hz with rfl | hz
        · exact Or.inl hc
        · exact hy z hz
      · exact insertByKey_pairwise_lex hys (fun z hz => hbelow z (by simp [hz]))
    · rw [if_neg hc]
      have hcf : dateLt y.2 x.2 = false := eq_false_of_ne_true hc
      refine List.pairwise_cons.mpr ⟨?_, hl⟩
      intro z hz
      rcases List.mem_cons.mp hz with rfl | hz
      · by_cases hxy : dateLt x.2 z.2
        · exact Or.inl hxy
        · exact Or.inr ⟨dateLt_total (eq_false_of_ne_true hxy) hcf,
            hbelow z (by simp)⟩
      · rcases hy z hz with hlt | ⟨heq, hfst⟩
        · by_cases hxy : dateLt x.2 y.2
          · exact Or.inl (dateLt_trans hxy hlt)
          · have hxyeq : x.2 = y.2 := dateLt_total (eq_false_of_ne_true hxy) hcf
            exact Or.inl (hxyeq ▸ hlt)
        · by_cases hxy : dateLt x.2 y.2
          · exact Or.inl (heq ▸ hxy)
          · have hxyeq : x.2 = y.2 := dateLt_total (eq_false_of_ne_true hxy) hcf
            exact Or.inr ⟨hxyeq.trans heq, hbelow z (by simp [hz])⟩

theorem sortByKey_pairwise_lex :
    ∀ {l : List (Nat × Date)}, l.Pairwise (fun a b => a.1 < b.1) →
      (sortByKey dateLt Prod.snd l).Pairwise pairLex
  | [], _ => List.Pairwise.nil
  | x :: xs, hl => by
    obtain ⟨hx, hxs⟩ := List.pairwise_cons.mp hl
    unfold sortByKey
    refine insertByKey_pairwise_lex (sortByKey_pairwise_lex hxs) ?_
    intro y hy
    exact hx y ((mem_sortByKey dateLt Prod.snd y xs).mp hy)

theorem closestPairsFrom_pairwise_fst :
    ∀ (ts : List Todo) (i0 : Nat),
      (closestPairsFrom i0 ts).Pairwise (fun a b => a.1 < b.1)
  | [], _ => List.Pairwise.nil
  | t :: ts', i0 => by
    unfold closestPairsFrom
    refine List.pairwise_append.mpr
      ⟨?_, closestPairsFrom_pairwise_fst ts' (i0 + 1), ?_⟩
    · split
      · cases t.description.due <;> simp
      · simp
    · intro a ha b hb
      have hb' := (closestPairsFrom_mem ts' (i0 + 1) b hb).1
      have ha' : a.1 = i0 := by
        revert ha
        split
        · cases t.description.due <;> simp_all
        · simp
      omega

/-- The `closest` selector: incomplete and carrying a due date. -/
def dueSel (ts : List Todo) (k : Nat) : Bool :=
  (ts[k]?.elim false (fun t => !t.completion && t.description.due.isSome))

/-- The due date stored at a collection index. -/
def dueOf (ts : List Todo) (i : Nat) : Option Date :=
  ts[i]?.bind (fun t => t.description.due)

theorem dueSel_zero (t : Todo) (ts : List Todo) :
    dueSel (t :: ts) 0 = (!t.completion && t.description.due.isSome) := by
  simp [dueSel]

theorem dueSel_succ (t : Todo) (ts : List Todo) (k : Nat) :
    dueSel (t :: ts) (k + 1) = dueSel ts k := by
  simp [dueSel]

theorem closestPairsFrom_fst :
    ∀ (ts : List Todo) (i0 : Nat),
      (closestPairsFrom i0 ts).map Prod.fst =
        ((List.range ts.length).filter (dueSel ts)).map (fun k => i0 + k)
  | [], i0 => by simp [closestPairsFrom]
  | t :: ts', i0 => by
    unfold closestPairsFrom
    rw [List.map_append, closestPairsFrom_fst ts' (i0 + 1)]
    have hlen : (t :: ts').length = ts'.length + 1 := rfl
    rw [hlen, List.range_succ_eq_map, List.filter_cons]
    have hf : List.filter (dueSel (t :: ts')) ((List.range ts'.length).map Nat.succ) =
        ((List.range ts'.length).filter (dueSel ts')).map Nat.succ := by
      rw [List.filter_map]
      congr 1
      refine List.filter_congr (fun k _ => ?_)
      show dueSel (t :: ts') (k + 1) = dueSel ts' k
      exact dueSel_succ t ts' k
    have hshift : (((List.range ts'.length).filter (dueSel ts')).map Nat.succ).map
          (fun k => i0 + k) =
        ((List.range ts'.length).filter (dueSel ts')).map (fun k => i0 + 1 + k) := by
      rw [List.map_map]
      refine List.map_congr_left (fun k _ => ?_)
      show i0 + Nat.succ k = i0 + 1 + k
      omega
    rw [dueSel_zero]
    by_cases hsel : (!t.completion && t.description.due.isSome) = true
    · rw [if_pos hsel]
      have hcompl : (!t.completion) = true := by
        cases hcb : (!t.completion)
        · rw [hcb] at hsel
          simp at hsel
        · rfl
      have hdue : t.description.due.isSome = true := by
        cases hdb : t.description.due.isSome
        · rw [hdb] at hsel
          simp at hsel
        · rfl
      rcases hdo : t.description.due with _ | d
      · rw [hdo] at hdue
        simp at hdue
      · rw [if_pos hcompl, hf]
        simp [hshift]
    · rw [if_neg hsel]
      have hempty : (if (!t.completion) = true then
          (match t.description.due with
            | some d => [(i0, d)] | none => ([] : List (Nat × Date)))
          else []) = [] := by
        by_cases hcb : (!t.completion) = true
        · rw [if_pos hcb]
          rcases hdo : t.description.due with _ | d
          · rfl
          · exfalso
            apply hsel
            rw [hcb, hdo]
            rfl
        · rw [if_neg hcb]
      rw [hempty, hf, hshift]
      simp

/-- C5: `closest` leaves the collection (and the file) unchanged, reports no
error, and the new view is a permutation of the indices of incomplete Tasks
with a due date, ordered ascending by due date with collection order breaking
ties. -/
theorem claim5_theorem (today : Date) (fs : FS) (todos : List Todo)
    (view : List Nat) :
    ∃ v' : List Nat,
      execute_command today fs todos view "closest" = some (⟨todos, v', none⟩, fs) ∧
      v'.Perm ((List.range todos.length).filter (dueSel todos)) ∧
      v'.Pairwise (fun i j => ∃ di dj, dueOf todos i = some di ∧
        dueOf todos j = some dj ∧ (dateLt di dj = true ∨ (di = dj ∧ i < j))) := by
  refine ⟨(sortByKey dateLt Prod.snd (closestPairsFrom 0 todos)).map Prod.fst,
    rfl, ?_, ?_⟩
  · have hperm := ((sortByKey_perm dateLt Prod.snd
      (closestPairsFrom 0 todos)).map Prod.fst)
    rw [closestPairsFrom_fst todos 0] at hperm
    refine hperm.trans ?_
    have : ((List.range todos.length).filter (dueSel todos)).map (fun k => 0 + k) =
        (List.range todos.length).filter (dueSel todos) := by
      have := List.map_congr_left (l := (List.range todos.length).filter (dueSel todos))
        (f := fun k => 0 + k) (g := id) (fun k _ => (Nat.zero_add k).trans rfl)
      rw [this, List.map_id]
    rw [this]
  · have hpw := sortByKey_pairwise_lex (closestPairsFrom_pairwise_fst todos 0)
    rw [List.pairwise_map]
    refine hpw.imp_of_mem ?_
    intro a b ha hb hab
    obtain ⟨-, -, ta, hta, -, hda⟩ :=
      closestPairsFrom_mem todos 0 a ((mem_sortByKey dateLt Prod.snd a _).mp ha)
    obtain ⟨-, -, tb, htb, -, hdb⟩ :=
      closestPairsFrom_mem todos 0 b ((mem_sortByKey dateLt Prod.snd b _).mp hb)
    rw [Nat.sub_zero] at hta htb
    refine ⟨a.2, b.2, ?_, ?_, hab⟩
    · unfold dueOf
      rw [hta]
      simpa using hda
    · unfold dueOf
      rw [htb]
      simpa using hdb

/-! ## Claim C3 helpers -/

theorem dropWhile_ws_eq_self : ∀ {l : List Char}, (∀ c ∈ l, c.isWhitespace = false) →
    l.dropWhile Char.isWhitespace = l
  | [], _ => rfl
  | c :: cs, h => by
    rw [List.dropWhile_cons, h c (by simp)]
    simp

theorem trimChars_no_ws {l : List Char} (h : ∀ c ∈ l, c.isWhitespace = false) :
    trimChars l = l := by
  unfold trimChars
  rw [dropWhile_ws_eq_self h,
    dropWhile_ws_eq_self (fun c hc => h c (List.mem_reverse.mp hc)),
    List.reverse_reverse]

theorem trimChars_ends {a b : Char} {mid : List Char}
    (ha : a.isWhitespace = false) (hb : b.isWhitespace = false) :
    trimChars (a :: (mid ++ [b])) = a :: (mid ++ [b]) := by
  unfold trimChars
  rw [List.dropWhile_cons, ha]
  simp only [Bool.false_eq_true, if_false]
  have h2 : (a :: (mid ++ [b])).reverse = b :: (mid.reverse ++ [a]) := by simp
  rw [h2, List.dropWhile_cons, hb]
  simp only [Bool.false_eq_true, if_false]
  simp

theorem strTrim_no_ws {s : String} (h : ∀ c ∈ s.data, c.isWhitespace = false) :
    strTrim s = s := by
  unfold strTrim
  rw [trimChars_no_ws h]

theorem parseUsize_digits {s : String} (hne : s.data ≠ [])
    (hdig : ∀ c ∈ s.data, isDigitC c = true)
    (hfit : digitsVal s.data < 2 ^ 64) :
    parseUsize s = some (digitsVal s.data) := by
  have hh : ¬ s.data.head? = some '+' := by
    rcases hd : s.data with _ | ⟨c, cs⟩
    · simp
    · simp only [List.head?_cons, Option.some.injEq]
      intro hc
      have h1 := hdig c (by rw [hd]; exact List.mem_cons_self c cs)
      rw [hc] at h1
      exact absurd h1 (by decide)
  unfold parseUsize
  rw [if_neg hh]
  show (if s.data ≠ [] ∧ s.data.all isDigitC then
      (if digitsVal s.data < 2 ^ 64 then some (digitsVal s.data) else none)
    else none) = some (digitsVal s.data)
  rw [if_pos ⟨hne, List.all_eq_true.mpr hdig⟩, if_pos hfit]

theorem mark_done_completion (today : Date) (t : Todo) :
    (Todo.mark_done today t).completion = true := by
  by_cases h : t.completion = true <;> simp [Todo.mark_done, h]

theorem formatParts_completed {t : Todo} (h : t.completion = true) :
    ∃ rest, t.formatParts = "x" :: rest := by
  unfold Todo.formatParts
  rw [h, if_pos rfl]
  exact ⟨_, rfl⟩

theorem parse_format_completion {t : Todo} (h : t.completion = true) :
    (Todo.parse (Todo.format t)).completion = true := by
  obtain ⟨rest, hparts⟩ := formatParts_completed h
  have htoks : ∃ more, tokenizeStr (strTrim (Todo.format t)) = "x" :: more := by
    refine ⟨((rest.map String.data).map tokenize).flatten.map String.mk, ?_⟩
    show (tokenize (trimChars (sepJoin (t.formatParts.map String.data)))).map String.mk = _
    rw [tokenize_trimChars, tokenize_sepJoin, hparts]
    simp only [List.map_cons, List.flatten_cons]
    rw [tokenize_of_clean "x".data (by decide)]
    rfl
  obtain ⟨more, htoks⟩ := htoks
  unfold Todo.parse
  rw [htoks, parseTokens_completion, parseMarker_x]

theorem data_append_done (arg : String) :
    ("done " ++ arg).data = ['d', 'o', 'n', 'e', ' '] ++ arg.data := rfl

set_option maxHeartbeats 800000 in
/-- C3: for every collection, view and `n` with `1 <= n <= view.length`,
executing `done n` (with `n` written in decimal digits) resolves `n` as a
1-based position in the current view and marks completed the task at
collection index `view[n-1]`: the collection written back and reloaded is
`todos.set idx (mark_done today todos[idx])` for `idx = view[n-1]`, the marked
task is completed, and when the rewrite and reload both succeed the reloaded
collection at index `idx` is that completed task (serialized and re-parsed). -/
theorem claim3_theorem (today : Date) (fs : FS) (todos : List Todo)
    (view : List Nat) (arg : String) (n idx : Nat)
    (hne : arg.data ≠ [])
    (hdig : ∀ c ∈ arg.data, isDigitC c = true)
    (hval : digitsVal arg.data = n)
    (hfit : n < 2 ^ 64)
    (hn : 1 ≤ n ∧ n ≤ view.length)
    (hvi : view[n - 1]? = some idx)
    (hidx : idx < todos.length) :
    execute_command today fs todos view ("done " ++ arg) =
      some (⟨load_all (rewrite_file fs (todos.set idx
            (Todo.mark_done today (todos.get ⟨idx, hidx⟩)))).1,
          List.range (load_all (rewrite_file fs (todos.set idx
            (Todo.mark_done today (todos.get ⟨idx, hidx⟩)))).1).length, none⟩,
        (rewrite_file fs (todos.set idx
          (Todo.mark_done today (todos.get ⟨idx, hidx⟩)))).1) ∧
      (Todo.mark_done today (todos.get ⟨idx, hidx⟩)).completion = true ∧
      (fs.rewriteFails = false → fs.readFails = false →
        (load_all (rewrite_file fs (todos.set idx
            (Todo.mark_done today (todos.get ⟨idx, hidx⟩)))).1)[idx]? =
          some (Todo.parse (Todo.format
            (Todo.mark_done today (todos.get ⟨idx, hidx⟩)))) ∧
        (Todo.parse (Todo.format
            (Todo.mark_done today (todos.get ⟨idx, hidx⟩)))).completion = true) := by
  have hnws : ∀ c ∈ arg.data, c.isWhitespace = false :=
    fun c hc => isDigitC_not_ws (hdig c hc)
  obtain ⟨initL, lastc, hcat⟩ := (List.eq_nil_or_concat arg.data).resolve_left hne
  have hlast : lastc.isWhitespace = false :=
    hnws lastc (by rw [hcat]; simp [List.concat_eq_append])
  have htrim : strTrim ("done " ++ arg) = "done " ++ arg := by
    unfold strTrim
    have hI : trimChars (("done " ++ arg).data) = ("done " ++ arg).data := by
      rw [data_append_done, hcat, List.concat_eq_append]
      show trimChars ('d' :: (('o' :: 'n' :: 'e' :: ' ' :: initL) ++ [lastc])) =
        'd' :: (('o' :: 'n' :: 'e' :: ' ' :: initL) ++ [lastc])
      rw [trimChars_ends (by decide) hlast]
    rw [hI]
  have htok : (tokenizeStr (strTrim ("done " ++ arg))).head? = some "done" := by
    rw [htrim]
    show ((tokenize (("done " ++ arg).data)).map String.mk).head? = some "done"
    rw [data_append_done]
    show ((tokenize (['d', 'o', 'n', 'e'] ++ ' ' :: arg.data)).map String.mk).head? =
      some "done"
    rw [tokenize_append_sep]
    rfl
  have hpre : ("done " ++ arg).data = "done ".data ++ arg.data := data_append_done arg
  have hp : "done ".data.isPrefixOf (("done " ++ arg).data) = true := by
    rw [hpre]
    exact List.isPrefixOf_iff_prefix.mpr (List.prefix_append _ _)
  have hstrip : stripPrefixStr "done " ("done " ++ arg) = some arg := by
    unfold stripPrefixStr
    rw [if_pos hp, hpre, List.drop_left]
  have htrimarg : strTrim arg = arg := strTrim_no_ws hnws
  have hpu : parseUsize (strTrim arg) = some n := by
    rw [htrimarg, parseUsize_digits hne hdig (by rw [hval]; exact hfit), hval]
  refine ⟨?_, mark_done_completion today _, ?_⟩
  · rw [execute_word today fs todos view ("done " ++ arg) "done" htok,
      if_neg (by decide), if_neg (by decide), if_pos rfl, htrim,
      doDone_ok hstrip hpu hn hvi hidx today fs]
  · intro hrw hrd
    have hfs : (rewrite_file fs (todos.set idx
        (Todo.mark_done today (todos.get ⟨idx, hidx⟩)))).1 =
        { fs with lines := (todos.set idx
          (Todo.mark_done today (todos.get ⟨idx, hidx⟩))).map Todo.format } := by
      unfold rewrite_file
      rw [hrw]
      simp
    rw [hfs]
    have hload : load_all { fs with lines := (todos.set idx
        (Todo.mark_done today (todos.get ⟨idx, hidx⟩))).map Todo.format } =
        ((todos.set idx
          (Todo.mark_done today (todos.get ⟨idx, hidx⟩))).map Todo.format).map
            Todo.parse := by
      show (if fs.readFails then [] else _) = _
      rw [hrd]
      simp
    rw [hload]
    constructor
    · rw [List.map_map, List.getElem?_map, List.getElem?_set_self]
      · rfl
      · exact hidx
    · exact parse_format_completion (mark_done_completion today _)

theorem claim3_witness :
    execute_command ⟨2024, 5, 1⟩ ⟨["a", "b", "c"], false, false, false⟩
        [Todo.parse "a", Todo.parse "b", Todo.parse "c"] [2, 0, 1] ("done " ++ "1") =
      some (⟨load_all (rewrite_file ⟨["a", "b", "c"], false, false, false⟩
            [Todo.parse "a", Todo.parse "b",
              Todo.mark_done ⟨2024, 5, 1⟩ (Todo.parse "c")]).1,
          List.range (load_all (rewrite_file ⟨["a", "b", "c"], false, false, false⟩
            [Todo.parse "a", Todo.parse "b",
              Todo.mark_done ⟨2024, 5, 1⟩ (Todo.parse "c")]).1).length, none⟩,
        (rewrite_file ⟨["a", "b", "c"], false, false, false⟩
          [Todo.parse "a", Todo.parse "b",
            Todo.mark_done ⟨2024, 5, 1⟩ (Todo.parse "c")]).1) ∧
      (Todo.mark_done ⟨2024, 5, 1⟩ (Todo.parse "c")).completion = true ∧
      ((false : Bool) = false → (false : Bool) = false →
        (load_all (rewrite_file ⟨["a", "b", "c"], false, false, false⟩
            [Todo.parse "a", Todo.parse "b",
              Todo.mark_done ⟨2024, 5, 1⟩ (Todo.parse "c")]).1)[2]? =
          some (Todo.parse (Todo.format
            (Todo.mark_done ⟨2024, 5, 1⟩ (Todo.parse "c")))) ∧
        (Todo.parse (Todo.format
            (Todo.mark_done ⟨2024, 5, 1⟩ (Todo.parse "c")))).completion = true) :=
  claim3_theorem ⟨2024, 5, 1⟩ ⟨["a", "b", "c"], false, false, false⟩
    [Todo.parse "a", Todo.parse "b", Todo.parse "c"] [2, 0, 1] "1" 1 2
    (by decide) (by decide) (by decide) (by decide)
    ⟨by decide, by decide⟩ (by decide) (by decide)

/-! ## Claim C1: canonical-line round trip

A *canonical line* follows the serialization token order: optional `x`,
optional `(P)`, dates (two for a completed line, at most one otherwise),
plain content tokens, optional `+project`, optional `@context`, and an
optional final supplement token (`due:`-prefixed or `:`/`=`-shaped) — the
"at most one extra key:value token" of the claim. -/

/-- A plain content token of a canonical line: a clean whitespace-free
token that cannot be mistaken for a marker, priority, date or tag. -/
def plainTok (w : String) : Prop :=
  cleanTok w.data ∧ w ≠ "x" ∧ prioShaped w = false ∧ parseDate w = none ∧
    contentTok w

instance (w : String) : Decidable (plainTok w) := by
  unfold plainTok
  infer_instance

/-- A `+project` / `@context` token: clean and starting with the mark. -/
def tagTok (mark : Char) (w : String) : Prop :=
  w.data.head? = some mark ∧ cleanTok w.data

instance (mark : Char) (w : String) : Decidable (tagTok mark w) := by
  unfold tagTok
  infer_instance

/-- A supplement token: clean, not a tag, not priority-shaped, and either
`due:`-prefixed or containing `':'` / `'='`. -/
def supTok (w : String) : Prop :=
  cleanTok w.data ∧ w.data.head? ≠ some '+' ∧ w.data.head? ≠ some '@' ∧
    prioShaped w = false ∧
    (startsWithDue w = true ∨ w.data.contains ':' = true ∨
      w.data.contains '=' = true)

instance (w : String) : Decidable (supTok w) := by
  unfold supTok
  infer_instance

/-- The token list of a canonical line, from its components. -/
def canonToks (xm : Bool) (pr : Option String) (ds cts : List String)
    (pj cx sup : Option String) : List String :=
  (if xm then ["x"] else []) ++
    (pr.toList ++ (ds ++ (cts ++ (pj.toList ++ (cx.toList ++ sup.toList)))))

/-- The priority extracted from an optional priority token
(`tok.chars().nth(1)`). -/
def prioVal : Option String → Option Char
  | some p => p.data[1]?
  | none => none

/-- The `due` field produced by classifying an optional supplement token. -/
def dueOfSup : Option String → Option Date
  | some w => if startsWithDue w then parseDateChars (w.data.drop 4) else none
  | none => none

/-- The date-token section of a canonical line: two dates when completed,
at most one otherwise, together with the dates they parse to. -/
def dsSpec (xm : Bool) (ds : List String) (cd cr : Option Date) : Prop :=
  (ds = [] ∧ cd = none ∧ cr = none) ∨
  (xm = false ∧ ∃ d1 c1, ds = [d1] ∧ parseDate d1 = some c1 ∧
    cd = none ∧ cr = some c1) ∨
  (xm = true ∧ ∃ d1 d2 c1 c2, ds = [d1, d2] ∧ parseDate d1 = some c1 ∧
    parseDate d2 = some c2 ∧ cd = some c1 ∧ cr = some c2)

theorem prioShaped_ne_x {w : String} (h : prioShaped w = true) : w ≠ "x" := by
  intro he
  subst he
  exact absurd h (by decide)

theorem tagTok_ne_x {mark : Char} {w : String} (hm : mark ≠ 'x')
    (h : tagTok mark w) : w ≠ "x" := by
  intro he
  subst he
  have h1 := h.1
  simp only [show ("x" : String).data = ['x'] from rfl, List.head?_cons,
    Option.some.injEq] at h1
  exact hm h1.symm

theorem tagTok_not_prio {mark : Char} {w : String} (hm : mark ≠ '(')
    (h : tagTok mark w) : prioShaped w = false := by
  cases hp : prioShaped w with
  | false => rfl
  | true =>
    exfalso
    obtain ⟨c, hdata, -, -⟩ := prioShaped_elim hp
    have h1 := h.1
    rw [hdata] at h1
    simp only [List.head?_cons, Option.some.injEq] at h1
    exact hm h1.symm

theorem tagTok_not_date {mark : Char} {w : String}
    (hm : mark = '+' ∨ mark = '@') (h : tagTok mark w) : parseDate w = none := by
  cases hpd : parseDate w with
  | none => rfl
  | some dt =>
    exfalso
    obtain ⟨hplus, hat, -, -, -, -, -, -⟩ := parseDate_token_facts hpd
    rcases hm with rfl | rfl
    · exact hplus h.1
    · exact hat h.1

theorem supTok_ne_x {w : String} (h : supTok w) : w ≠ "x" := by
  intro he
  subst he
  rcases h.2.2.2.2 with hd | hc | hc
  · exact absurd hd (by decide)
  · exact absurd hc (by decide)
  · exact absurd hc (by decide)

theorem supTok_not_date {w : String} (h : supTok w) : parseDate w = none := by
  cases hpd : parseDate w with
  | none => rfl
  | some dt =>
    exfalso
    obtain ⟨-, -, hdue, hcol, heq, -, -, -⟩ := parseDate_token_facts hpd
    rcases h.2.2.2.2 with hd | hc | hc
    · rw [hd] at hdue
      exact absurd hdue (by decide)
    · rw [hc] at hcol
      exact absurd hcol (by decide)
    · rw [hc] at heq
      exact absurd heq (by decide)

theorem parseMarker_skip {L : List String} (h : ∀ w ∈ L, w ≠ "x") :
    parseMarker L = (false, L) := by
  cases L with
  | nil => rfl
  | cons w r => exact parseMarker_not_x (h w (by simp)) r

theorem parsePriority_skip {L : List String} (h : ∀ w ∈ L, prioShaped w = false) :
    parsePriority L = (none, L) := by
  cases L with
  | nil => rfl
  | cons w r => exact parsePriority_not (h w (by simp)) r

theorem parseDates_skip (c : Bool) {L : List String}
    (h : ∀ w ∈ L, parseDate w = none) :
    parseDates c L = (none, none, L) := by
  refine parseDates_none c ?_
  cases L with
  | nil => rfl
  | cons w r =>
    simp only [List.getElem?_cons_zero, Option.some_bind]
    exact h w (by simp)

theorem classify_context {w : String} (h1 : w.data.head? ≠ some '+')
    (hw : w.data.head? = some '@') (acc : DescAcc) :
    classify acc w = { acc with context := some (String.mk w.data.tail) } := by
  unfold classify
  rw [if_neg h1, if_pos hw]

theorem classify_sup_step {w : String} (h : supTok w) {acc : DescAcc}
    (hsupn : acc.supplement = none) (hduen : acc.due = none) :
    classify acc w = { acc with supplement := some w, due := dueOfSup (some w) } := by
  obtain ⟨hc, hplus, hat, hpr, hdisj⟩ := h
  cases hdue : startsWithDue w with
  | true =>
    rw [classify_due hdue acc]
    cases hpd : parseDateChars (w.data.drop 4) <;>
      simp [dueOfSup, hdue, hpd, hduen]
  | false =>
    have hkv : w.data.contains ':' = true ∨ w.data.contains '=' = true := by
      rcases hdisj with hd | h | h
      · rw [hd] at hdue
        exact absurd hdue (by decide)
      · exact Or.inl h
      · exact Or.inr h
    rw [classify_kv hplus hat hdue hsupn hkv]
    simp [dueOfSup, hdue, hduen]

theorem ctx_ne_plus {w : String} (h : tagTok '@' w) : w.data.head? ≠ some '+' := by
  rw [h.1]
  intro he
  exact absurd (Option.some.inj he) (by decide)

theorem foldl_canon_desc (cts : List String) (pj cx sup : Option String)
    (hcts : ∀ w ∈ cts, plainTok w)
    (hpj : ∀ w ∈ pj, tagTok '+' w)
    (hcx : ∀ w ∈ cx, tagTok '@' w)
    (hsup : ∀ w ∈ sup, supTok w) :
    (cts ++ (pj.toList ++ (cx.toList ++ sup.toList))).foldl classify initAcc =
      ⟨cts, pj.map (fun w => String.mk w.data.tail),
        cx.map (fun w => String.mk w.data.tail), sup, dueOfSup sup⟩ := by
  have h1 : cts.foldl classify initAcc = ⟨cts, none, none, none, none⟩ := by
    rw [foldl_classify_content cts (fun w hw => (hcts w hw).2.2.2.2) initAcc]
    rfl
  rw [List.foldl_append, h1]
  rcases pj with _ | pw <;> rcases cx with _ | cw <;> rcases sup with _ | sw
  · rfl
  · show classify ⟨cts, none, none, none, none⟩ sw = _
    rw [classify_sup_step (hsup sw rfl) rfl rfl]
    rfl
  · show classify ⟨cts, none, none, none, none⟩ cw = _
    rw [classify_context (ctx_ne_plus (hcx cw rfl)) (hcx cw rfl).1]
    rfl
  · show classify (classify ⟨cts, none, none, none, none⟩ cw) sw = _
    rw [classify_context (ctx_ne_plus (hcx cw rfl)) (hcx cw rfl).1,
      classify_sup_step (hsup sw rfl) rfl rfl]
    rfl
  · show classify ⟨cts, none, none, none, none⟩ pw = _
    rw [classify_project (hpj pw rfl).1]
    rfl
  · show classify (classify ⟨cts, none, none, none, none⟩ pw) sw = _
    rw [classify_project (hpj pw rfl).1,
      classify_sup_step (hsup sw rfl) rfl rfl]
    rfl
  · show classify (classify ⟨cts, none, none, none, none⟩ pw) cw = _
    rw [classify_project (hpj pw rfl).1,
      classify_context (ctx_ne_plus (hcx cw rfl)) (hcx cw rfl).1]
    rfl
  · show classify (classify (classify ⟨cts, none, none, none, none⟩ pw) cw) sw = _
    rw [classify_project (hpj pw rfl).1,
      classify_context (ctx_ne_plus (hcx cw rfl)) (hcx cw rfl).1,
      classify_sup_step (hsup sw rfl) rfl rfl]
    rfl

theorem parseTokens_canon (xm : Bool) (pr : Option String) (ds cts : List String)
    (pj cx sup : Option String) (cd cr : Option Date)
    (hpr : ∀ p ∈ pr, prioShaped p = true)
    (hds : dsSpec xm ds cd cr)
    (hcts : ∀ w ∈ cts, plainTok w)
    (hpj : ∀ w ∈ pj, tagTok '+' w)
    (hcx : ∀ w ∈ cx, tagTok '@' w)
    (hsup : ∀ w ∈ sup, supTok w) :
    Todo.parseTokens (canonToks xm pr ds cts pj cx sup) =
      { completion := xm
        priority := prioVal pr
        completion_date := cd
        creation_date := cr
        description :=
          { content := joinSp cts
            project := pj.map (fun w => String.mk w.data.tail)
            context := cx.map (fun w => String.mk w.data.tail)
            supplement := sup
            due := dueOfSup sup } } := by
  have hdsp : ∀ d ∈ ds, ∃ dd, parseDate d = some dd := by
    rcases hds with ⟨rfl, -, -⟩ | ⟨-, d1, c1, rfl, hp1, -, -⟩ |
      ⟨-, d1, d2, c1, c2, rfl, hp1, hp2, -, -⟩
    · intro d hd
      exact absurd hd (List.not_mem_nil d)
    · intro d hd
      rw [List.mem_singleton] at hd
      subst hd
      exact ⟨c1, hp1⟩
    · intro d hd
      rcases List.mem_cons.mp hd with rfl | hd2
      · exact ⟨c1, hp1⟩
      · rw [List.mem_singleton] at hd2
        subst hd2
        exact ⟨c2, hp2⟩
  have hm : parseMarker (canonToks xm pr ds cts pj cx sup) =
      (xm, pr.toList ++ (ds ++ (cts ++ (pj.toList ++ (cx.toList ++ sup.toList))))) := by
    cases xm with
    | true => rfl
    | false =>
      show parseMarker
        (pr.toList ++ (ds ++ (cts ++ (pj.toList ++ (cx.toList ++ sup.toList))))) = _
      refine parseMarker_skip ?_
      intro w hw
      simp only [List.mem_append] at hw
      rcases hw with hw | hw | hw | hw | hw | hw
      · exact prioShaped_ne_x (hpr w (Option.mem_toList.mp hw))
      · obtain ⟨dd, hdd⟩ := hdsp w hw
        exact (parseDate_token_facts hdd).2.2.2.2.2.2.1
      · exact (hcts w hw).2.1
      · exact tagTok_ne_x (by decide) (hpj w (Option.mem_toList.mp hw))
      · exact tagTok_ne_x (by decide) (hcx w (Option.mem_toList.mp hw))
      · exact supTok_ne_x (hsup w (Option.mem_toList.mp hw))
  have hp : parsePriority
      (pr.toList ++ (ds ++ (cts ++ (pj.toList ++ (cx.toList ++ sup.toList))))) =
      (prioVal pr, ds ++ (cts ++ (pj.toList ++ (cx.toList ++ sup.toList)))) := by
    rcases pr with _ | p
    · show parsePriority (ds ++ (cts ++ (pj.toList ++ (cx.toList ++ sup.toList)))) = _
      refine parsePriority_skip ?_
      intro w hw
      simp only [List.mem_append] at hw
      rcases hw with hw | hw | hw | hw | hw
      · obtain ⟨dd, hdd⟩ := hdsp w hw
        exact (parseDate_token_facts hdd).2.2.2.2.2.1
      · exact (hcts w hw).2.2.1
      · exact tagTok_not_prio (by decide) (hpj w (Option.mem_toList.mp hw))
      · exact tagTok_not_prio (by decide) (hcx w (Option.mem_toList.mp hw))
      · exact (hsup w (Option.mem_toList.mp hw)).2.2.2.1
    · show parsePriority
        (p :: (ds ++ (cts ++ (pj.toList ++ (cx.toList ++ sup.toList))))) = _
      rw [parsePriority_shaped (hpr p rfl)]
      rfl
  have hdts : parseDates xm (ds ++ (cts ++ (pj.toList ++ (cx.toList ++ sup.toList)))) =
      (cd, cr, cts ++ (pj.toList ++ (cx.toList ++ sup.toList))) := by
    have hrest : ∀ w ∈ cts ++ (pj.toList ++ (cx.toList ++ sup.toList)),
        parseDate w = none := by
      intro w hw
      simp only [List.mem_append] at hw
      rcases hw with hw | hw | hw | hw
      · exact (hcts w hw).2.2.2.1
      · exact tagTok_not_date (Or.inl rfl) (hpj w (Option.mem_toList.mp hw))
      · exact tagTok_not_date (Or.inr rfl) (hcx w (Option.mem_toList.mp hw))
      · exact supTok_not_date (hsup w (Option.mem_toList.mp hw))
    rcases hds with ⟨rfl, rfl, rfl⟩ | ⟨hxm, d1, c1, rfl, hp1, rfl, rfl⟩ |
      ⟨hxm, d1, d2, c1, c2, rfl, hp1, hp2, rfl, rfl⟩
    · show parseDates xm (cts ++ (pj.toList ++ (cx.toList ++ sup.toList))) = _
      exact parseDates_skip xm hrest
    · subst hxm
      show parseDates false
        (d1 :: (cts ++ (pj.toList ++ (cx.toList ++ sup.toList)))) = _
      have h0 : ((d1 :: (cts ++ (pj.toList ++ (cx.toList ++ sup.toList)))) :
          List String)[0]?.bind parseDate = some c1 := by
        simp only [List.getElem?_cons_zero, Option.some_bind]
        exact hp1
      rw [parseDates_false_some h0]
      rfl
    · subst hxm
      show parseDates true
        (d1 :: d2 :: (cts ++ (pj.toList ++ (cx.toList ++ sup.toList)))) = _
      have h0 : ((d1 :: d2 :: (cts ++ (pj.toList ++ (cx.toList ++ sup.toList)))) :
          List String)[0]?.bind parseDate = some c1 := by
        simp only [List.getElem?_cons_zero, Option.some_bind]
        exact hp1
      have h1 : ((d1 :: d2 :: (cts ++ (pj.toList ++ (cx.toList ++ sup.toList)))) :
          List String)[1]?.bind parseDate = some c2 := by
        simp only [List.getElem?_cons_succ, List.getElem?_cons_zero, Option.some_bind]
        exact hp2
      rw [parseDates_true_both h0 h1]
      rfl
  have hf : (cts ++ (pj.toList ++ (cx.toList ++ sup.toList))).foldl classify
      ⟨[], none, none, none, none⟩ =
      ⟨cts, pj.map (fun w => String.mk w.data.tail),
        cx.map (fun w => String.mk w.data.tail), sup, dueOfSup sup⟩ :=
    foldl_canon_desc cts pj cx sup hcts hpj hcx hsup
  simp [Todo.parseTokens, hm, hp, hdts, hf, -List.foldl_append]

/-- The serialized priority chunk of `Todo::format`. -/
def optPrio : Option Char → List String
  | some p => [String.mk ['(', p, ')']]
  | none => []

/-- A serialized optional date chunk of `Todo::format`. -/
def optDate : Option Date → List String
  | some d => [formatDate d]
  | none => []

/-- A serialized `+project` / `@context` chunk of `Todo::format`. -/
def optTag (mark : Char) : Option String → List String
  | some s => [String.mk (mark :: s.data)]
  | none => []

/-- The serialized supplement chunk of `Todo::format`. -/
def optSup : Option String → List String
  | some s => [s]
  | none => []

theorem formatParts_eq (t : Todo) :
    t.formatParts =
      (if t.completion then ["x"] else []) ++
        (optPrio t.priority ++
          (((if t.completion then optDate t.completion_date else []) ++
            optDate t.creation_date) ++
            ([t.description.content] ++
              (optTag '+' t.description.project ++
                (optTag '@' t.description.context ++
                  optSup t.description.supplement))))) := by
  rcases t with ⟨cpl, pri, cdt, crd, ⟨ct, pjf, cxf, supf, duef⟩⟩
  cases cpl <;> cases pri <;> cases cdt <;> cases crd <;> cases pjf <;>
    cases cxf <;> cases supf <;> rfl

theorem optPrio_prioVal {p : String} (hp : prioShaped p = true) :
    optPrio (prioVal (some p)) = [p] := by
  obtain ⟨c, hdata, -, hc1⟩ := prioShaped_elim hp
  show optPrio p.data[1]? = [p]
  rw [hc1]
  show [String.mk ['(', c, ')']] = [p]
  rw [← hdata]

theorem optTag_tag {mark : Char} {w : String} (h : w.data.head? = some mark) :
    optTag mark (some (String.mk w.data.tail)) = [w] := by
  rcases hd : w.data with _ | ⟨c, r⟩
  · rw [hd] at h
    simp at h
  · rw [hd] at h
    simp only [List.head?_cons, Option.some.injEq] at h
    subst h
    show [String.mk (c :: r)] = [w]
    rw [← hd]

theorem tokenizeStr_of_clean {w : String} (h : cleanTok w.data) :
    tokenizeStr w = [w] := by
  unfold tokenizeStr
  rw [tokenize_of_clean w.data h]
  rfl

theorem flat_tokensStr : ∀ (X : List String), (∀ w ∈ X, cleanTok w.data) →
    (X.map tokenizeStr).flatten = X
  | [], _ => rfl
  | w :: ws, h => by
    simp only [List.map_cons, List.flatten_cons]
    rw [tokenizeStr_of_clean (h w (by simp)),
      flat_tokensStr ws (fun v hv => h v (by simp [hv]))]
    rfl

theorem map_mk_flatten : ∀ (L : List (List (List Char))),
    L.flatten.map String.mk = (L.map (List.map String.mk)).flatten
  | [] => rfl
  | a :: L => by
    simp only [List.flatten_cons, List.map_append, List.map_cons]
    rw [map_mk_flatten L]

theorem tokenizeStr_strTrim_joinSp (parts : List String) :
    tokenizeStr (strTrim (joinSp parts)) = (parts.map tokenizeStr).flatten := by
  show (tokenize (trimChars (sepJoin (parts.map String.data)))).map String.mk = _
  rw [tokenize_trimChars, tokenize_sepJoin, map_mk_flatten, List.map_map, List.map_map]
  rfl

theorem tokenizeStr_joinSp_clean (ts : List String)
    (h : ∀ w ∈ ts, cleanTok w.data) :
    tokenizeStr (joinSp ts) = ts := by
  show (tokenize (sepJoin (ts.map String.data))).map String.mk = ts
  rw [tokenize_sepJoin, map_mk_flatten, List.map_map, List.map_map]
  show (ts.map tokenizeStr).flatten = ts
  exact flat_tokensStr ts h

theorem formatDateChars_not_ws (d : Date) :
    ∀ c ∈ formatDateChars d, c.isWhitespace = false := by
  intro c hc
  have hdd : isDigitC c = true ∨ c = '-' := by
    unfold formatDateChars at hc
    simp only [List.mem_append, List.mem_cons] at hc
    have h4 := List.all_eq_true.mp (pad4_digits d.year)
    have h2m := List.all_eq_true.mp (pad2_digits d.month)
    have h2d := List.all_eq_true.mp (pad2_digits d.day)
    rcases hc with (hc | hc | hc) | (hc | hc)
    · exact Or.inl (h4 c hc)
    · exact Or.inr hc
    · exact Or.inl (h2m c hc)
    · exact Or.inr hc
    · exact Or.inl (h2d c hc)
  rcases hdd with hdig | rfl
  · exact isDigitC_not_ws hdig
  · decide

theorem formatDate_clean (d : Date) : cleanTok (formatDate d).data := by
  constructor
  · show formatDateChars d ≠ []
    unfold formatDateChars pad4
    simp
  · exact formatDateChars_not_ws d

theorem parseDate_formatDate {w : String} {dt : Date} (h : parseDate w = some dt) :
    parseDate (formatDate dt) = some dt := by
  obtain ⟨hv, hy, -⟩ := parseDateChars_inv h
  show parseDateChars (formatDateChars dt) = some dt
  rcases dt with ⟨y, m, d⟩
  exact parseDateChars_format hv hy

set_option maxHeartbeats 1000000 in
theorem canon_roundtrip (xm : Bool) (pr : Option String) (ds cts : List String)
    (pj cx sup : Option String) (cd cr : Option Date)
    (hpr : ∀ p ∈ pr, prioShaped p = true ∧ cleanTok p.data)
    (hds : dsSpec xm ds cd cr)
    (hcts : ∀ w ∈ cts, plainTok w)
    (hpj : ∀ w ∈ pj, tagTok '+' w)
    (hcx : ∀ w ∈ cx, tagTok '@' w)
    (hsup : ∀ w ∈ sup, supTok w) :
    Todo.parse (Todo.format (Todo.parseTokens (canonToks xm pr ds cts pj cx sup))) =
      Todo.parseTokens (canonToks xm pr ds cts pj cx sup) := by
  have hds' : dsSpec xm ((if xm then optDate cd else []) ++ optDate cr) cd cr := by
    rcases hds with ⟨-, rfl, rfl⟩ | ⟨hxm, d1, c1, -, hp1, rfl, rfl⟩ |
      ⟨hxm, d1, d2, c1, c2, -, hp1, hp2, rfl, rfl⟩
    · left
      refine ⟨?_, rfl, rfl⟩
      cases xm <;> rfl
    · subst hxm
      right
      left
      exact ⟨rfl, formatDate c1, c1, rfl, parseDate_formatDate hp1, rfl, rfl⟩
    · subst hxm
      right
      right
      exact ⟨rfl, formatDate c1, formatDate c2, c1, c2, rfl,
        parseDate_formatDate hp1, parseDate_formatDate hp2, rfl, rfl⟩
  have hchunk_pr : optPrio (prioVal pr) = pr.toList := by
    rcases pr with _ | p
    · rfl
    · rw [optPrio_prioVal (hpr p rfl).1]
      rfl
  have hchunk_pj : optTag '+' (pj.map (fun w => String.mk w.data.tail)) = pj.toList := by
    rcases pj with _ | w
    · rfl
    · exact optTag_tag (hpj w rfl).1
  have hchunk_cx : optTag '@' (cx.map (fun w => String.mk w.data.tail)) = cx.toList := by
    rcases cx with _ | w
    · rfl
    · exact optTag_tag (hcx w rfl).1
  have hchunk_sup : optSup sup = sup.toList := by
    rcases sup with _ | w <;> rfl
  have hclean_x : ∀ w ∈ (if xm then ["x"] else []), cleanTok w.data := by
    cases xm
    · intro w hw
      simp at hw
    · intro w hw
      simp only [if_true, List.mem_singleton] at hw
      subst hw
      decide
  have hclean_pr : ∀ w ∈ pr.toList, cleanTok w.data :=
    fun w hw => (hpr w (Option.mem_toList.mp hw)).2
  have hclean_cd : ∀ w ∈ (if xm then optDate cd else []), cleanTok w.data := by
    cases xm
    · intro w hw
      simp at hw
    · rcases cd with _ | c
      · intro w hw
        simp [optDate] at hw
      · intro w hw
        simp only [if_true, optDate, List.mem_singleton] at hw
        subst hw
        exact formatDate_clean c
  have hclean_cr : ∀ w ∈ optDate cr, cleanTok w.data := by
    rcases cr with _ | c
    · intro w hw
      simp [optDate] at hw
    · intro w hw
      simp only [optDate, List.mem_singleton] at hw
      subst hw
      exact formatDate_clean c
  have hclean_pj : ∀ w ∈ pj.toList, cleanTok w.data :=
    fun w hw => (hpj w (Option.mem_toList.mp hw)).2
  have hclean_cx : ∀ w ∈ cx.toList, cleanTok w.data :=
    fun w hw => (hcx w (Option.mem_toList.mp hw)).2
  have hclean_sup : ∀ w ∈ sup.toList, cleanTok w.data :=
    fun w hw => (hsup w (Option.mem_toList.mp hw)).1
  rw [parseTokens_canon xm pr ds cts pj cx sup cd cr (fun p hp => (hpr p hp).1)
    hds hcts hpj hcx hsup]
  unfold Todo.parse Todo.format
  rw [formatParts_eq]
  dsimp only
  rw [hchunk_pr, hchunk_pj, hchunk_cx, hchunk_sup]
  rw [tokenizeStr_strTrim_joinSp]
  simp only [List.map_append, List.flatten_append, List.map_cons, List.map_nil,
    List.flatten_cons, List.flatten_nil, List.append_nil]
  rw [flat_tokensStr (if xm then ["x"] else []) hclean_x,
    flat_tokensStr pr.toList hclean_pr,
    flat_tokensStr (if xm then optDate cd else []) hclean_cd,
    flat_tokensStr (optDate cr) hclean_cr,
    tokenizeStr_joinSp_clean cts (fun w hw => (hcts w hw).1),
    flat_tokensStr pj.toList hclean_pj,
    flat_tokensStr cx.toList hclean_cx,
    flat_tokensStr sup.toList hclean_sup]
  show Todo.parseTokens
    (canonToks xm pr ((if xm then optDate cd else []) ++ optDate cr) cts pj cx sup) = _
  rw [parseTokens_canon xm pr ((if xm then optDate cd else []) ++ optDate cr)
    cts pj cx sup cd cr (fun p hp => (hpr p hp).1) hds' hcts hpj hcx hsup]

/-- C1: for every Task obtained by parsing a well-formed line — one whose
tokens follow the canonical serialization order (optional `x`, optional
`(P)`, dates, plain content tokens, optional `+project`, optional
`@context`, and at most one final `due:`- or `:`/`=`-shaped supplement
token) — serializing and re-parsing yields a Task equal in every field. -/
theorem claim1_theorem (line : String) (xm : Bool) (pr : Option String)
    (ds cts : List String) (pj cx sup : Option String) (cd cr : Option Date)
    (htoks : tokenizeStr (strTrim line) = canonToks xm pr ds cts pj cx sup)
    (hpr : ∀ p ∈ pr, prioShaped p = true ∧ cleanTok p.data)
    (hds : dsSpec xm ds cd cr)
    (hcts : ∀ w ∈ cts, plainTok w)
    (hpj : ∀ w ∈ pj, tagTok '+' w)
    (hcx : ∀ w ∈ cx, tagTok '@' w)
    (hsup : ∀ w ∈ sup, supTok w) :
    Todo.parse (Todo.format (Todo.parse line)) = Todo.parse line := by
  have h1 : Todo.parse line = Todo.parseTokens (canonToks xm pr ds cts pj cx sup) := by
    unfold Todo.parse
    rw [htoks]
  rw [h1]
  exact canon_roundtrip xm pr ds cts pj cx sup cd cr hpr hds hcts hpj hcx hsup

theorem claim1_witness :
    Todo.parse (Todo.format (Todo.parse
        "x (A) 2024-01-02 2024-01-01 Buy milk +home @errand due:2024-01-05")) =
      Todo.parse "x (A) 2024-01-02 2024-01-01 Buy milk +home @errand due:2024-01-05" :=
  claim1_theorem "x (A) 2024-01-02 2024-01-01 Buy milk +home @errand due:2024-01-05"
    true (some "(A)") ["2024-01-02", "2024-01-01"] ["Buy", "milk"]
    (some "+home") (some "@errand") (some "due:2024-01-05")
    (some ⟨2024, 1, 2⟩) (some ⟨2024, 1, 1⟩)
    (by decide)
    (fun p hp => by
      rw [Option.mem_def] at hp
      injection hp with hp2
      subst hp2
      exact ⟨by decide, by decide⟩)
    (Or.inr (Or.inr ⟨rfl, "2024-01-02", "2024-01-01", ⟨2024, 1, 2⟩, ⟨2024, 1, 1⟩,
      rfl, by decide, by decide, rfl, rfl⟩))
    (by decide)
    (fun w hw => by
      rw [Option.mem_def] at hw
      injection hw with hw2
      subst hw2
      decide)
    (fun w hw => by
      rw [Option.mem_def] at hw
      injection hw with hw2
      subst hw2
      decide)
    (fun w hw => by
      rw [Option.mem_def] at hw
      injection hw with hw2
      subst hw2
      decide)
